import Mathlib

/-!
Verification of the IPTV source-validation pipeline (niuin-s-iptv).

Each Python script of `scripts/` that the claims touch is shallowly embedded
here as executable Lean definitions, and the claims are settled as theorems
about those definitions. Definitions come first, then all theorems.

Modelling conventions:
* Python dicts are association lists (`List (κ × β)`) with Python assignment
  semantics (`alSet`: replace the binding if the key is present, else append).
* JSON string keys that are compared or sorted lexicographically over
  fixed-width digit strings (date tags `YYYYMMDD`, time tags `YYYYMMDDHHMM`,
  timepoint labels, URLs used only as lookup and sort keys) are represented
  by natural numbers; on fixed-width digit strings the lexicographic order
  coincides with the numeric order.
* Python float arithmetic on similarity scores is modelled by exact rational
  arithmetic over `ℚ`.
* Network, subprocess and file-system effects are modelled by explicit
  oracles (functions from attempt number / timepoint to an outcome) or by a
  `JsonFile` value describing the state of a backing file.
-/

/-- State of a JSON backing file on disk: absent, present but not valid
JSON, or present with decoded content `v`. -/
inductive JsonFile (β : Type) where
  | missing
  | corrupt
  | valid (v : β)
deriving DecidableEq

/-- Python dict lookup `m.get(k)` on an association list. -/
def alGet {κ β : Type} [DecidableEq κ] (m : List (κ × β)) (k : κ) : Option β :=
  (m.find? (fun p => p.1 == k)).map (fun p => p.2)

/-- Python dict assignment `m[k] = v`: replace the binding if the key is
present, otherwise append the new binding at the end. -/
def alSet {κ β : Type} [DecidableEq κ] : List (κ × β) → κ → β → List (κ × β)
  | [], k, v => [(k, v)]
  | q :: m, k, v => if q.1 = k then (k, v) :: m else q :: alSet m k v

/-- Keys of an association list, in insertion order (Python `m.keys()`). -/
def alKeys {κ β : Type} (m : List (κ × β)) : List κ :=
  m.map (fun p => p.1)

/-! ## 6.1_fast_scan.py — Reachability Prober (claim C3) -/

namespace FastScan

/-- HTTP response observed by one GET attempt: the status code and whether
reading the first few bytes of the body completes without raising. -/
structure HttpResponse where
  status : Nat
  readOk : Bool
deriving DecidableEq

/-- Outcome of issuing one GET request: either a response arrives, or the
request itself raises (connection failure, DNS error, timeout). -/
inductive FetchOutcome where
  | resp (r : HttpResponse)
  | exn
deriving DecidableEq

def RETRY_LIMIT : Nat := 2

def SUCCESS_STATUS : List Nat := [200, 206, 301, 302, 403, 429]

/-- fetch_url: one GET attempt. Returns (success flag, rtt, status code),
mirroring the Python triple. A status outside the allow-set and outside
5xx fails with the observed status; an exception (including one raised
while reading the body) yields (False, None, None). -/
def fetch_url (o : FetchOutcome) (rtt : Nat) : Bool × Option Nat × Option Nat :=
  match o with
  | .exn => (false, none, none)
  | .resp r =>
    if r.status ∈ SUCCESS_STATUS ∨ (500 ≤ r.status ∧ r.status ≤ 599) then
      if r.readOk then (true, some rtt, some r.status)
      else (false, none, none)
    else (false, none, some r.status)

/-- Row annotation produced by check_source: the appended 检测时间 field
(None models the empty string written on failure), the appended 状态码
field, and the number of fetch attempts that were issued. -/
structure CheckResult where
  timing : Option Nat
  statusCode : Option Nat
  attemptsUsed : Nat
deriving DecidableEq

/-- Retry loop body of check_source: `used` attempts already issued,
`remaining` attempts left, `lastStatus` the status of the last attempt. -/
def check_source_from (resps : Nat → FetchOutcome) (rtts : Nat → Nat) :
    Nat → Nat → Option Nat → CheckResult
  | used, 0, lastStatus => ⟨none, lastStatus, used⟩
  | used, remaining + 1, _ =>
    let r := fetch_url (resps used) (rtts used)
    if r.1 then ⟨r.2.1, r.2.2, used + 1⟩
    else check_source_from resps rtts (used + 1) remaining r.2.2

/-- check_source: up to RETRY_LIMIT attempts; on the first success return
the row annotated with rtt and status, otherwise return the row with an
empty timing field and the last observed status. -/
def check_source (resps : Nat → FetchOutcome) (rtts : Nat → Nat) : CheckResult :=
  check_source_from resps rtts 0 RETRY_LIMIT none

end FastScan

/-! ## 6.31_pts_check.py — Temporal Integrity Checker (claim C5) -/

namespace PtsCheck

/-- Result dict of probe_pts after PTS extraction: either the inconclusive
too-few-samples dict or the monotonicity report. -/
structure PtsReport where
  ok : Bool
  reason : Option String
  pts_count : Nat
  pts_span : Option ℚ
  backward_cnt : Option Nat
  is_monotonic : Option Bool
deriving DecidableEq

/-- Python max over a nonempty list (the empty case is never reached by
probe_pts, which guards on the sample count first). -/
def pyMax : List ℚ → ℚ
  | [] => 0
  | x :: xs => xs.foldl max x

/-- Python min over a nonempty list. -/
def pyMin : List ℚ → ℚ
  | [] => 0
  | x :: xs => xs.foldl min x

/-- Backward-transition count: the loop `for i in range(1, len(pts_list))`
counting indices with `pts_list[i] <= pts_list[i-1]`. -/
def backward_count (l : List ℚ) : Nat :=
  (List.range' 1 (l.length - 1)).countP (fun i => decide (l.getD i 0 ≤ l.getD (i - 1) 0))

/-- Classification part of probe_pts, applied to the extracted PTS list:
fewer than 5 samples is inconclusive (ok False, reason too_few_pts);
otherwise report span, backward count, and monotonicity at tolerance 1. -/
def probe_pts_eval (l : List ℚ) : PtsReport :=
  if l.length < 5 then
    ⟨false, some "too_few_pts", l.length, none, none, none⟩
  else
    ⟨true, none, l.length, some (pyMax l - pyMin l), some (backward_count l),
      some (decide (backward_count l ≤ 1))⟩

end PtsCheck

/-! ## 6.3_final_scan.py — Fake-Source Matcher against the total cache
(claims C1, C8, C10, and part of C7) -/

namespace FinalScan

def HASH_SIZE : Nat := 8

def HASH_BITS : Nat := HASH_SIZE * HASH_SIZE

/-- Fuel-driven binary popcount; the fuel `n` always suffices for input `n`.
Models Python int.bit_count on the (nonnegative) hash values. -/
def popCountAux : Nat → Nat → Nat
  | 0, _ => 0
  | fuel + 1, n => if n = 0 then 0 else n % 2 + popCountAux fuel (n / 2)

def popCount (n : Nat) : Nat := popCountAux n n

/-- hamming: (a XOR b).bit_count(). -/
def hamming (a b : Nat) : Nat := popCount (a ^^^ b)

/-- Per-URL per-timepoint hash record of the parsed total cache and of a
freshly captured frame; None is a null hash value. -/
structure HashTriple where
  phash : Option Nat
  ahash : Option Nat
  dhash : Option Nat
deriving DecidableEq

/-- similarity_hash: 0.0 when either hash is None, else the normalized
Hamming similarity 1 - hamming/HASH_BITS. -/
def similarity_hash (h1 h2 : Option Nat) : ℚ :=
  match h1, h2 with
  | some a, some b => 1 - (hamming a b : ℚ) / (HASH_BITS : ℚ)
  | _, _ => 0

/-- The sims list built by average_similarity: one entry per algorithm
present on both sides, checked in the fixed order phash, ahash, dhash. -/
def simList (h1 h2 : HashTriple) : List ℚ :=
  (if h1.phash.isSome ∧ h2.phash.isSome then [similarity_hash h1.phash h2.phash] else [])
    ++ (if h1.ahash.isSome ∧ h2.ahash.isSome then [similarity_hash h1.ahash h2.ahash] else [])
    ++ (if h1.dhash.isSome ∧ h2.dhash.isSome then [similarity_hash h1.dhash h2.dhash] else [])

/-- average_similarity: mean of the shared-algorithm similarities, 0.0 when
no algorithm is shared. -/
def average_similarity (h1 h2 : HashTriple) : ℚ :=
  if simList h1 h2 = [] then 0
  else (simList h1 h2).sum / ((simList h1 h2).length : ℚ)

/-- Parsed cache record for one URL: date bucket → timepoint → hashes. -/
abbrev Cache4Url := List (Nat × List (Nat × HashTriple))

/-- The nested max_sim loop of process_one: running maximum, starting at
0.0, over every cached date bucket, timepoint, and fresh hash triple. -/
def max_sim_fold (c : Cache4Url) (rhs : List HashTriple) : ℚ :=
  c.foldl
    (fun a dp =>
      dp.2.foldl
        (fun b tp => rhs.foldl (fun m rh => max m (average_similarity rh tp.2)) b) a)
    0

/-- Result dict of process_one (the url field is the function argument and
is omitted). -/
structure ScanResult where
  status : String
  errors : List String
  is_fake : Bool
  is_loop : Bool
  similarity : ℚ
deriving DecidableEq

/-- process_one, given the cache record for the URL (None when the URL is
absent) and the hash triples computed from the captured frames (one per
captured frame; empty exactly when no frame was captured). -/
def process_one (cacheForUrl : Option Cache4Url) (real_hashes : List HashTriple)
    (threshold : ℚ) : ScanResult :=
  if real_hashes.isEmpty then ⟨"error", ["all_grab_failed"], false, false, 0⟩
  else
    match cacheForUrl with
    | none => ⟨"ok", [], false, false, 1⟩
    | some c =>
      if c.isEmpty then ⟨"ok", [], false, false, 1⟩
      else
        let ms := max_sim_fold c real_hashes
        ⟨"ok", [], decide (threshold ≤ ms), false, ms⟩

/-- Raw total-cache hash values for one timepoint as decoded from JSON;
a hex string is represented by its integer value, a falsy value by None. -/
structure RawTriple where
  phash : Option Nat
  ahash : Option Nat
  dhash : Option Nat
deriving DecidableEq

abbrev RawStore := List (Nat × List (Nat × List (Nat × RawTriple)))

abbrev CacheStore := List (Nat × Cache4Url)

/-- Conversion loop of load_cache_advanced: hex strings to integers,
falsy entries to None. -/
def parse_cache (raw : RawStore) : CacheStore :=
  raw.map (fun u =>
    (u.1, u.2.map (fun d =>
      (d.1, d.2.map (fun t => (t.1, (⟨t.2.phash, t.2.ahash, t.2.dhash⟩ : HashTriple)))))))

/-- load_cache_advanced: a missing file yields the empty pair; a file that
is not valid JSON makes json.load raise (there is no handler); otherwise
the parsed cache and the raw dict are returned. -/
def load_cache_advanced (f : JsonFile RawStore) : Except String (CacheStore × RawStore) :=
  match f with
  | .missing => .ok ([], [])
  | .corrupt => .error "JSONDecodeError"
  | .valid raw => .ok (parse_cache raw, raw)

/-- Flattened list of all similarities inspected by the max_sim loop; used
to characterize the running maximum. -/
def allSims (c : Cache4Url) (rhs : List HashTriple) : List ℚ :=
  c.flatMap (fun dp => dp.2.flatMap (fun tp => rhs.map (fun rh => average_similarity rh tp.2)))

/-- Claim-side definition (spec wording of C1): the most recent date bucket
key of a cache record, by chronological (numeric) order. -/
def most_recent_date (c : Cache4Url) : Nat :=
  (alKeys c).foldl max 0

/-- Claim-side definition (spec wording of C1): running maximum of the
similarities of the fresh hashes against the most recent date bucket only. -/
def max_sim_recent (c : Cache4Url) (rhs : List HashTriple) : ℚ :=
  match alGet c (most_recent_date c) with
  | none => 0
  | some tps =>
    tps.foldl
      (fun b tp => rhs.foldl (fun m rh => max m (average_similarity rh tp.2)) b) 0

/-- All-ones 64-bit mask. -/
def M64 : Nat := 2 ^ 64 - 1

def tripleZero : HashTriple := ⟨some 0, some 0, some 0⟩

def tripleFar : HashTriple := ⟨some M64, some M64, some M64⟩

/-- Concrete two-bucket cache record: the older bucket 20240101 matches the
fresh hashes exactly, the most recent bucket 20240102 is maximally far. -/
def exCache : Cache4Url :=
  [(20240101, [(811, tripleZero)]), (20240102, [(811, tripleFar)])]

end FinalScan

/-! ## 6.3_hash_scan.py — Perceptual Fingerprint Engine (claim C4) -/

namespace HashScan

def GRAB_TIMES : List Nat := [2, 5, 20]

/-- One pass of the inner `for t in GRAB_TIMES` loop of process_url: fetch
a frame at every timepoint, raising (None) at the first timepoint whose
fetch_frame fails, which aborts the whole cycle. -/
def attempt_cycle {ι : Type} (fetch : Nat → Option ι) : List Nat → Option (List ι)
  | [] => some []
  | t :: ts =>
    match fetch t with
    | none => none
    | some img =>
      match attempt_cycle fetch ts with
      | none => none
      | some imgs => some (img :: imgs)

/-- The retry loop: attempts 0, 1, …, n-1 in order, returning the frames of
the earliest fully successful cycle. -/
def find_success {ι : Type} (f : Nat → Option (List ι)) : Nat → Option (List ι)
  | 0 => none
  | n + 1 =>
    match find_success f n with
    | some r => some r
    | none => f n

/-- The four per-algorithm hash lists of one process_url result, one slot
per configured timepoint. -/
structure FingerprintLists (α : Type) where
  phashes : List (Option α)
  ahashes : List (Option α)
  dhashes : List (Option α)
  whashes : List (Option α)
deriving DecidableEq

/-- process_url hash-list construction: `fetchAt k t` is the fetch_frame
outcome at attempt k and timepoint t, and p/a/d/w are the four hash
functions of calc_hashes. A cycle that succeeds ends the retry loop with
all four lists filled from its frames; if every cycle up to `retries`
fails, all four lists are set to [None] * len(GRAB_TIMES). -/
def process_url {ι α : Type} (fetchAt : Nat → Nat → Option ι) (p a d w : ι → α)
    (retries : Nat) : FingerprintLists α :=
  match find_success (fun k => attempt_cycle (fetchAt k) GRAB_TIMES) (retries + 1) with
  | some imgs =>
    ⟨imgs.map (fun i => some (p i)), imgs.map (fun i => some (a i)),
      imgs.map (fun i => some (d i)), imgs.map (fun i => some (w i))⟩
  | none =>
    ⟨GRAB_TIMES.map (fun _ => none), GRAB_TIMES.map (fun _ => none),
      GRAB_TIMES.map (fun _ => none), GRAB_TIMES.map (fun _ => none)⟩

/-- Concrete fetch oracle: frame grabs at timepoints 2 and 5 always
succeed, grabs at timepoint 20 always fail. -/
def exFetch (_ : Nat) (t : Nat) : Option Unit :=
  if t = 20 then none else some ()

end HashScan

/-! ## 7.1_merge_hash.py — hash-history store merge (claims C2 and C7) -/

namespace MergeHash

def MAX_HISTORY : Nat := 6

/-- load_json_safe: a missing file or one whose contents are not valid JSON
(json.JSONDecodeError is caught) yields the empty dict. -/
def load_json_safe {κ β : Type} (f : JsonFile (List (κ × β))) : List (κ × β) :=
  match f with
  | .missing => []
  | .corrupt => []
  | .valid v => v

/-- Per-URL body of the merge loop: write the chunk result under the time
tag, then while more than MAX_HISTORY buckets remain, delete the
chronologically oldest ones (all but the last MAX_HISTORY of the sorted key
list). Time tags YYYYMMDDHHMM are modelled as naturals. -/
def merge_bucket {α : Type} (r : List (Nat × α)) (tag : Nat) (v : α) : List (Nat × α) :=
  let r1 := alSet r tag v
  if MAX_HISTORY < r1.length then
    let sorted_keys := (alKeys r1).insertionSort (· ≤ ·)
    let old := sorted_keys.take (r1.length - MAX_HISTORY)
    r1.filter (fun p => decide (p.1 ∉ old))
  else r1

/-- The bucket record of one URL after a sequence of merges, starting from
an absent record; each list element is one (time tag, chunk result) write
from some merge run. -/
def merge_run {α : Type} (ops : List (Nat × α)) : List (Nat × α) :=
  ops.foldl (fun acc q => merge_bucket acc q.1 q.2) []

/-- Invariant tying a URL record to the set `s` of time tags merged so far:
keys are distinct, drawn from `s`, the record holds min(MAX_HISTORY, card s)
buckets, and every merged tag not retained is older than every retained one. -/
def bucket_inv {α : Type} (r : List (Nat × α)) (s : Finset Nat) : Prop :=
  (alKeys r).Nodup
  ∧ (∀ k ∈ alKeys r, k ∈ s)
  ∧ r.length = min MAX_HISTORY s.card
  ∧ (∀ x ∈ s, x ∉ alKeys r → ∀ y ∈ alKeys r, x < y)

/-- Seven writes with ascending time tags 1..7 and unit payloads. -/
def exOps : List (Nat × Unit) :=
  [(1, ()), (2, ()), (3, ()), (4, ()), (5, ()), (6, ()), (7, ())]

end MergeHash

/-! ## D_merge_cache.py — rolling total-cache merge (claims C6 and C7) -/

namespace MergeCache

/-- Reading the existing total cache: a missing file initializes the empty
dict, but invalid JSON makes json.load raise (there is no handler). -/
def read_total_cache {κ β : Type} (f : JsonFile (List (κ × β))) :
    Except String (List (κ × β)) :=
  match f with
  | .missing => .ok []
  | .corrupt => .error "JSONDecodeError"
  | .valid v => .ok v

/-- Normalized per-timepoint cache entry as written by the merge: the four
fields read back through .get (hash values of abstract type α). -/
structure CEntry (α : Type) where
  phash : Option α
  ahash : Option α
  dhash : Option α
  error : Option α
deriving DecidableEq

/-- One chunk file: URL → timepoint → entry. -/
abbrev Chunk (α : Type) := List (Nat × List (Nat × CEntry α))

/-- The total cache: URL → date → timepoint → entry. -/
abbrev Store (α : Type) := List (Nat × List (Nat × List (Nat × CEntry α)))

/-- Fixed timepoint labels used to order serialized output ("0811",
"1612", "2113" as naturals). -/
def TIME_KEYS : List Nat := [811, 1612, 2113]

/-- Merging one chunk-file record for one URL under date directory `date`:
merged.setdefault(url, dict()), merged[url].setdefault(date, dict()), then
each timepoint entry of the record is assigned in order. -/
def apply_file {α : Type} (date : Nat) (s : Store α) (f : Nat × List (Nat × CEntry α)) :
    Store α :=
  let urec := (alGet s f.1).getD []
  let drec := (alGet urec date).getD []
  let drec2 := f.2.foldl (fun m q => alSet m q.1 q.2) drec
  alSet s f.1 (alSet urec date drec2)

/-- Merging all records of one chunk file, in file order. -/
def apply_chunk {α : Type} (date : Nat) (s : Store α) (ch : Chunk α) : Store α :=
  ch.foldl (apply_file date) s

/-- Merging all chunk files of one date directory, in enumeration order. -/
def apply_dir {α : Type} (s : Store α) (dd : Nat × List (Chunk α)) : Store α :=
  dd.2.foldl (apply_chunk dd.1) s

/-- Merging all date directories, in sorted date order. -/
def merge_all {α : Type} (s : Store α) (dirs : List (Nat × List (Chunk α))) : Store α :=
  dirs.foldl apply_dir s

/-- The pruning loop before the merge: delete date buckets outside the
recent window, then drop URLs left with no buckets. -/
def prune {α : Type} (s : Store α) (recent : List Nat) : Store α :=
  (s.map (fun p => (p.1, p.2.filter (fun d => decide (d.1 ∈ recent))))).filter
    (fun p => !p.2.isEmpty)

/-- The sorted serialization: URLs in sorted order, each with its date
buckets in sorted order, each with its timepoints in TIME_KEYS order
(timepoints outside TIME_KEYS are dropped). -/
def sort_output {α : Type} (s : Store α) : Store α :=
  ((alKeys s).insertionSort (· ≤ ·)).map (fun u =>
    (u, ((alKeys ((alGet s u).getD [])).insertionSort (· ≤ ·)).map (fun d =>
      (d, TIME_KEYS.filterMap (fun tk =>
        (alGet ((alGet ((alGet s u).getD []) d).getD []) tk).map (fun e => (tk, e)))))))

/-- merge_caches: prune the prior total cache to the recent window, merge
the chunk directories, and write the sorted output. -/
def merge_caches {α : Type} (prior : Store α) (recent : List Nat)
    (dirs : List (Nat × List (Chunk α))) : Store α :=
  sort_output (merge_all (prune prior recent) dirs)

/-- The (url, date, timepoint) ↦ entry assignments one chunk-file record
performs, in order. -/
def file_assignments {α : Type} (date : Nat) (f : Nat × List (Nat × CEntry α)) :
    List ((Nat × Nat × Nat) × CEntry α) :=
  f.2.map (fun q => ((f.1, date, q.1), q.2))

def chunk_assignments {α : Type} (date : Nat) (ch : Chunk α) :
    List ((Nat × Nat × Nat) × CEntry α) :=
  ch.flatMap (file_assignments date)

def dir_assignments {α : Type} (dd : Nat × List (Chunk α)) :
    List ((Nat × Nat × Nat) × CEntry α) :=
  dd.2.flatMap (chunk_assignments dd.1)

def all_assignments {α : Type} (dirs : List (Nat × List (Chunk α))) :
    List ((Nat × Nat × Nat) × CEntry α) :=
  dirs.flatMap dir_assignments

/-- Date bucket keys of one URL in a store. -/
def dateKeys {α : Type} (s : Store α) (u : Nat) : List Nat :=
  alKeys ((alGet s u).getD [])

/-- Entry of a store at URL u, date d, timepoint tk. -/
def entryAt {α : Type} (s : Store α) (u d tk : Nat) : Option (CEntry α) :=
  alGet ((alGet ((alGet s u).getD []) d).getD []) tk

/-- The value of the last assignment to key k in the assignment list L. -/
def lastAssign {α : Type} (L : List ((Nat × Nat × Nat) × CEntry α)) (k : Nat × Nat × Nat) :
    Option (CEntry α) :=
  (L.reverse.find? (fun q => decide (q.1 = k))).map (fun q => q.2)

/-- Store content at key k after the assignments L run over a prior value. -/
def overrideAt {α : Type} (L : List ((Nat × Nat × Nat) × CEntry α)) (k : Nat × Nat × Nat)
    (prior : Option (CEntry α)) : Option (CEntry α) :=
  match lastAssign L k with
  | some e => some e
  | none => prior

/-- The (url, date) keys whose records the setdefault calls create, even
for a record carrying no timepoints. -/
def mentioned {α : Type} (dirs : List (Nat × List (Chunk α))) : List (Nat × Nat) :=
  dirs.flatMap (fun dd => dd.2.flatMap (fun ch => ch.map (fun f => (f.1, dd.1))))

/-- Well-formedness of a store: distinct keys at the URL and date levels
(Python dicts cannot carry duplicate keys). -/
def WF {α : Type} (s : Store α) : Prop :=
  (alKeys s).Nodup ∧ ∀ p ∈ s, (alKeys p.2).Nodup

def exEntryA : CEntry Nat := ⟨some 1, none, none, none⟩

def exEntryB : CEntry Nat := ⟨some 2, none, none, none⟩

/-- Two chunk files of the same date directory that disagree on the entry
for URL 10, timepoint 0811. -/
def exChunkA : Chunk Nat := [(10, [(811, exEntryA)])]

def exChunkB : Chunk Nat := [(10, [(811, exEntryB)])]

end MergeCache

/-! ## Fake-Fingerprint Library Learner (claim C9) — the learner script is
not among the files under src, so it is modelled from the spec. -/

namespace Learner

/-- Modelled from the spec: state of the Fake-Source Matcher and Learner
across runs — the persisted library of known-fake fingerprints and the
per-fingerprint observation counts. The learner script itself is missing
from src (only its contract in the spec describes it). Fingerprints are an
abstract type η. -/
structure LearnerState (η : Type) where
  library : List η
  obs : List (η × Nat)

/-- Modelled from the spec: one run of the Learner on a fresh fingerprint.
When the fresh fingerprint matches an existing library entry closely enough
(the matcher `close` holds against some entry), its observation count is
incremented; once the count exceeds 1 (observed on more than one run) and
the fingerprint is not already in the library, it is folded into the
library as a new distinct entry. The library is never shrunk. -/
def observe {η : Type} [DecidableEq η] (close : η → η → Bool) (st : LearnerState η)
    (fresh : η) : LearnerState η :=
  if st.library.any (fun e => close e fresh) then
    let n := ((alGet st.obs fresh).getD 0) + 1
    let obs2 := alSet st.obs fresh n
    if 1 < n ∧ fresh ∉ st.library then ⟨st.library ++ [fresh], obs2⟩
    else ⟨st.library, obs2⟩
  else st

/-- Modelled from the spec: a sequence of later runs, each observing one
fresh fingerprint. -/
def run_learner {η : Type} [DecidableEq η] (close : η → η → Bool) (st : LearnerState η)
    (fs : List η) : LearnerState η :=
  fs.foldl (observe close) st

end Learner

/-! ## Theorems: association lists -/

theorem alKeys_nil {κ β : Type} : alKeys ([] : List (κ × β)) = [] := rfl

theorem alKeys_cons {κ β : Type} (q : κ × β) (m : List (κ × β)) :
    alKeys (q :: m) = q.1 :: alKeys m := rfl

theorem alGet_nil {κ β : Type} [DecidableEq κ] (k : κ) :
    alGet ([] : List (κ × β)) k = none := rfl

theorem alGet_cons {κ β : Type} [DecidableEq κ] (q : κ × β) (m : List (κ × β)) (k : κ) :
    alGet (q :: m) k = if q.1 = k then some q.2 else alGet m k := by
  by_cases h : q.1 = k
  · simp [alGet, List.find?, h]
  · have hb : (q.1 == k) = false := by simpa using h
    simp [alGet, List.find?, hb, h]

theorem alGet_alSet {κ β : Type} [DecidableEq κ] (m : List (κ × β)) (k k' : κ) (v : β) :
    alGet (alSet m k v) k' = if k' = k then some v else alGet m k' := by
  induction m with
  | nil =>
    simp only [alSet, alGet_cons, alGet_nil]
    by_cases h : k' = k
    · subst h; simp
    · have h2 : ¬ k = k' := fun hc => h hc.symm
      simp [h, h2]
  | cons q m ih =>
    by_cases hq : q.1 = k
    · simp only [alSet, if_pos hq]
      rw [alGet_cons, alGet_cons]
      by_cases h : k' = k
      · subst h; simp [hq]
      · have h2 : ¬ k = k' := fun hc => h hc.symm
        have h3 : ¬ q.1 = k' := fun hc => h2 (hq ▸ hc)
        simp [h, h2, h3]
    · simp only [alSet, if_neg hq]
      rw [alGet_cons, alGet_cons]
      by_cases hqk : q.1 = k'
      · have h : ¬ k' = k := fun hc => hq (hqk.trans hc)
        simp [hqk, h]
      · simp [hqk, ih]

theorem alKeys_alSet {κ β : Type} [DecidableEq κ] (m : List (κ × β)) (k : κ) (v : β) :
    alKeys (alSet m k v) = if k ∈ alKeys m then alKeys m else alKeys m ++ [k] := by
  induction m with
  | nil => simp [alSet, alKeys]
  | cons q m ih =>
    by_cases hq : q.1 = k
    · subst hq
      have hmem : q.1 ∈ alKeys (q :: m) := by
        rw [alKeys_cons]; exact List.mem_cons_self _ _
      simp [alSet, alKeys_cons, hmem]
    · simp only [alSet, if_neg hq, alKeys_cons, ih]
      by_cases hm : k ∈ alKeys m
      · have h2 : k ∈ q.1 :: alKeys m := List.mem_cons_of_mem _ hm
        simp [hm, h2]
      · have h2 : k ∉ q.1 :: alKeys m := by
          intro hc
          rcases List.mem_cons.mp hc with hc | hc
          · exact hq hc.symm
          · exact hm hc
        simp [hm, h2]

theorem length_alSet {κ β : Type} [DecidableEq κ] (m : List (κ × β)) (k : κ) (v : β) :
    (alSet m k v).length = if k ∈ alKeys m then m.length else m.length + 1 := by
  induction m with
  | nil => simp [alSet, alKeys]
  | cons q m ih =>
    by_cases hq : q.1 = k
    · subst hq
      have hmem : q.1 ∈ alKeys (q :: m) := by
        rw [alKeys_cons]; exact List.mem_cons_self _ _
      simp [alSet, hmem]
    · simp only [alSet, if_neg hq, List.length_cons, ih, alKeys_cons]
      by_cases hm : k ∈ alKeys m
      · have h2 : k ∈ q.1 :: alKeys m := List.mem_cons_of_mem _ hm
        simp [hm, h2]
      · have h2 : k ∉ q.1 :: alKeys m := by
          intro hc
          rcases List.mem_cons.mp hc with hc | hc
          · exact hq hc.symm
          · exact hm hc
        simp [hm, h2]

theorem mem_alSet {κ β : Type} [DecidableEq κ] (m : List (κ × β)) (k : κ) (v : β)
    (p : κ × β) (hp : p ∈ alSet m k v) : p = (k, v) ∨ p ∈ m := by
  induction m with
  | nil => simpa [alSet] using hp
  | cons q m ih =>
    by_cases hq : q.1 = k
    · simp only [alSet, if_pos hq, List.mem_cons] at hp
      rcases hp with h | h
      · exact Or.inl h
      · exact Or.inr (List.mem_cons_of_mem _ h)
    · simp only [alSet, if_neg hq, List.mem_cons] at hp
      rcases hp with h | h
      · exact Or.inr (h ▸ List.mem_cons_self _ _)
      · rcases ih h with h2 | h2
        · exact Or.inl h2
        · exact Or.inr (List.mem_cons_of_mem _ h2)

theorem alGet_eq_none_iff {κ β : Type} [DecidableEq κ] (m : List (κ × β)) (k : κ) :
    alGet m k = none ↔ k ∉ alKeys m := by
  induction m with
  | nil => simp [alGet_nil, alKeys_nil]
  | cons q m ih =>
    rw [alGet_cons, alKeys_cons]
    by_cases h : q.1 = k
    · simp [h]
    · have h2 : ¬ k = q.1 := fun hc => h hc.symm
      simp [h, h2, ih]

theorem alGet_isSome_of_mem {κ β : Type} [DecidableEq κ] (m : List (κ × β)) (k : κ)
    (h : k ∈ alKeys m) : ∃ v, alGet m k = some v := by
  cases hg : alGet m k with
  | none => exact absurd h ((alGet_eq_none_iff m k).mp hg)
  | some v => exact ⟨v, rfl⟩

/-! ## Theorems: fast scan (C3) -/

/-- C3: an attempt of the Reachability Prober succeeds exactly when the
status is in the allow-set {200, 206, 301, 302, 403, 429} or in 500–599 and
body bytes are readable; a 403 with readable body is classified reachable on
that attempt; a server that always answers 404 yields failure only after all
RETRY_LIMIT attempts, with an empty timing field and 404 as the last status. -/
theorem fast_scan_reachability :
    (∀ rtt : Nat, FastScan.fetch_url (.resp ⟨403, true⟩) rtt = (true, some rtt, some 403))
    ∧ (∀ (resps : Nat → FastScan.FetchOutcome) (rtts : Nat → Nat),
        (∀ k, ∃ ro, resps k = .resp ⟨404, ro⟩) →
        FastScan.check_source resps rtts = ⟨none, some 404, FastScan.RETRY_LIMIT⟩)
    ∧ (∀ (o : FastScan.FetchOutcome) (rtt : Nat),
        (FastScan.fetch_url o rtt).1 = true ↔
          ∃ r, o = .resp r ∧
            (r.status ∈ FastScan.SUCCESS_STATUS ∨ (500 ≤ r.status ∧ r.status ≤ 599)) ∧
            r.readOk = true) := by
  refine ⟨?_, ?_, ?_⟩
  · intro rtt
    simp [FastScan.fetch_url, FastScan.SUCCESS_STATUS]
  · intro resps rtts h
    obtain ⟨ro0, h0⟩ := h 0
    obtain ⟨ro1, h1⟩ := h 1
    have e404 : ∀ (ro : Bool) (rtt : Nat),
        FastScan.fetch_url (.resp ⟨404, ro⟩) rtt = (false, none, some 404) := by
      intro ro rtt
      simp [FastScan.fetch_url, FastScan.SUCCESS_STATUS]
    simp only [FastScan.check_source, FastScan.RETRY_LIMIT, FastScan.check_source_from,
      h0, h1, e404]
    simp
  · intro o rtt
    constructor
    · intro h
      cases o with
      | exn => simp [FastScan.fetch_url] at h
      | resp r =>
        by_cases hs : r.status ∈ FastScan.SUCCESS_STATUS ∨ (500 ≤ r.status ∧ r.status ≤ 599)
        · by_cases hr : r.readOk
          · exact ⟨r, rfl, hs, hr⟩
          · simp [FastScan.fetch_url, hs, hr] at h
        · simp [FastScan.fetch_url, hs] at h
    · rintro ⟨r, rfl, hs, hr⟩
      simp [FastScan.fetch_url, hs, hr]

/-- C3 witness: a server always answering 404 with readable body makes the
prober fail after both attempts, reporting empty timing and status 404. -/
theorem fast_scan_reachability_witness :
    FastScan.check_source (fun _ => .resp ⟨404, true⟩) (fun _ => 5) =
      ⟨none, some 404, FastScan.RETRY_LIMIT⟩ :=
  fast_scan_reachability.2.1 (fun _ => .resp ⟨404, true⟩) (fun _ => 5)
    (fun _ => ⟨true, rfl⟩)

/-! ## Theorems: PTS check (C5) -/

theorem backward_count_cons (x y : ℚ) (ys : List ℚ) :
    PtsCheck.backward_count (x :: y :: ys) =
      PtsCheck.backward_count (y :: ys) + (if y ≤ x then 1 else 0) := by
  have hr : List.range' 1 (ys.length + 1) = 1 :: List.range' 2 ys.length :=
    List.range'_succ 1 ys.length 1
  have hshift : List.range' 2 ys.length = (List.range' 1 ys.length).map (fun i => 1 + i) := by
    exact (List.map_add_range' 1 1 ys.length 1).symm
  simp only [PtsCheck.backward_count, List.length_cons, Nat.add_sub_cancel]
  rw [hr, List.countP_cons, hshift, List.countP_map]
  have hcong :
      (List.range' 1 ys.length).countP
        ((fun i => decide ((x :: y :: ys).getD i 0 ≤ (x :: y :: ys).getD (i - 1) 0)) ∘
          (fun i => 1 + i)) =
      (List.range' 1 ys.length).countP
        (fun i => decide ((y :: ys).getD i 0 ≤ (y :: ys).getD (i - 1) 0)) := by
    apply List.countP_congr
    intro i hi
    rcases List.mem_range'.mp hi with ⟨j, _, hij⟩
    have hi1 : 1 ≤ i := by omega
    have e1 : (x :: y :: ys).getD (1 + i) 0 = (y :: ys).getD i 0 := by
      have : 1 + i = i + 1 := by omega
      rw [this, List.getD_cons_succ]
    have e2 : (x :: y :: ys).getD (1 + i - 1) 0 = (y :: ys).getD (i - 1) 0 := by
      have h3 : 1 + i - 1 = (i - 1) + 1 := by omega
      rw [h3, List.getD_cons_succ]
    simp only [Function.comp]
    rw [e1, e2]
  rw [hcong]
  have e3 : (x :: y :: ys).getD 1 0 = y := rfl
  have e4 : (x :: y :: ys).getD 0 0 = x := rfl
  rw [e3, e4]
  by_cases h : y ≤ x <;> simp [h]

theorem backward_count_eq_pairs (l : List ℚ) :
    PtsCheck.backward_count l = (l.zip l.tail).countP (fun pc => decide (pc.2 ≤ pc.1)) := by
  induction l with
  | nil => rfl
  | cons x xs ih =>
    cases xs with
    | nil => rfl
    | cons y ys =>
      rw [backward_count_cons]
      have hz : (x :: y :: ys).zip (x :: y :: ys).tail =
          (x, y) :: ((y :: ys).zip ((y :: ys).tail)) := by
        simp [List.zip]
      rw [hz, List.countP_cons, ih]
      by_cases h : y ≤ x <;> simp [h]

/-- C5: fewer than 5 timestamps is inconclusive with reason too_few_pts; with
at least 5, the backward count is the number of successive pairs with
timestamp at most the previous one, and the source is monotonic exactly when
that count is at most the tolerance 1. [0,1,2,3,4] is monotonic with 0
backward transitions; [0,1,0.5,2,3] has backward count 1, hence monotonic at
tolerance 1 and not at tolerance 0. -/
theorem pts_check_classification :
    (∀ l : List ℚ, l.length < 5 →
      PtsCheck.probe_pts_eval l = ⟨false, some "too_few_pts", l.length, none, none, none⟩)
    ∧ (∀ l : List ℚ, 5 ≤ l.length →
        (PtsCheck.probe_pts_eval l).ok = true
        ∧ (PtsCheck.probe_pts_eval l).backward_cnt = some (PtsCheck.backward_count l)
        ∧ PtsCheck.backward_count l =
            (l.zip l.tail).countP (fun pc => decide (pc.2 ≤ pc.1))
        ∧ ((PtsCheck.probe_pts_eval l).is_monotonic = some true ↔
            PtsCheck.backward_count l ≤ 1))
    ∧ PtsCheck.backward_count [0, 1, 2, 3, 4] = 0
    ∧ (PtsCheck.probe_pts_eval [0, 1, 2, 3, 4]).is_monotonic = some true
    ∧ PtsCheck.backward_count [0, 1, mkRat 1 2, 2, 3] = 1
    ∧ (PtsCheck.probe_pts_eval [0, 1, mkRat 1 2, 2, 3]).is_monotonic = some true
    ∧ ¬ PtsCheck.backward_count [0, 1, mkRat 1 2, 2, 3] ≤ 0 := by
  refine ⟨?_, ?_, ?_, ?_, ?_, ?_, ?_⟩
  · intro l h
    simp [PtsCheck.probe_pts_eval, h]
  · intro l h
    have h5 : ¬ l.length < 5 := by omega
    refine ⟨by simp [PtsCheck.probe_pts_eval, h5], by simp [PtsCheck.probe_pts_eval, h5],
      backward_count_eq_pairs l, ?_⟩
    simp [PtsCheck.probe_pts_eval, h5]
  · decide
  · decide
  · decide
  · decide
  · decide

/-- C5 witness: the theorem applied at the two example timestamp lists. -/
theorem pts_check_classification_witness :
    (PtsCheck.probe_pts_eval [0, 1, mkRat 1 2, 2, 3]).ok = true
    ∧ PtsCheck.probe_pts_eval [0, 1] =
        ⟨false, some "too_few_pts", 2, none, none, none⟩ :=
  ⟨(pts_check_classification.2.1 [0, 1, mkRat 1 2, 2, 3] (by decide)).1,
    pts_check_classification.1 [0, 1] (by decide)⟩

/-! ## Theorems: final scan similarity (C8, C10, C1) -/

theorem le_foldl_max (x b : ℚ) (l : List ℚ) :
    x ≤ l.foldl max b ↔ x ≤ b ∨ ∃ y ∈ l, x ≤ y := by
  induction l generalizing b with
  | nil => simp
  | cons z l ih =>
    rw [List.foldl_cons, ih]
    constructor
    · rintro (h | ⟨y, hy, hxy⟩)
      · rcases le_max_iff.mp h with h | h
        · exact Or.inl h
        · exact Or.inr ⟨z, List.mem_cons_self _ _, h⟩
      · exact Or.inr ⟨y, List.mem_cons_of_mem _ hy, hxy⟩
    · rintro (h | ⟨y, hy, hxy⟩)
      · exact Or.inl (le_max_iff.mpr (Or.inl h))
      · rcases List.mem_cons.mp hy with rfl | hy2
        · exact Or.inl (le_max_iff.mpr (Or.inr hxy))
        · exact Or.inr ⟨y, hy2, hxy⟩

theorem rhs_fold_eq (rhs : List FinalScan.HashTriple) (t2 : FinalScan.HashTriple) (b : ℚ) :
    rhs.foldl (fun m rh => max m (FinalScan.average_similarity rh t2)) b =
      (rhs.map (fun rh => FinalScan.average_similarity rh t2)).foldl max b := by
  rw [List.foldl_map]

theorem tps_fold_eq (rhs : List FinalScan.HashTriple)
    (tps : List (Nat × FinalScan.HashTriple)) (b : ℚ) :
    tps.foldl
      (fun b tp => rhs.foldl (fun m rh => max m (FinalScan.average_similarity rh tp.2)) b) b =
      (tps.flatMap (fun tp => rhs.map (fun rh => FinalScan.average_similarity rh tp.2))).foldl
        max b := by
  induction tps generalizing b with
  | nil => rfl
  | cons tp tps ih =>
    rw [List.foldl_cons, List.flatMap_cons, List.foldl_append, ih, rhs_fold_eq]

theorem max_sim_fold_eq (c : FinalScan.Cache4Url) (rhs : List FinalScan.HashTriple) :
    FinalScan.max_sim_fold c rhs = (FinalScan.allSims c rhs).foldl max 0 := by
  rw [FinalScan.max_sim_fold, FinalScan.allSims]
  generalize (0 : ℚ) = b
  induction c generalizing b with
  | nil => rfl
  | cons dp c ih =>
    rw [List.foldl_cons, List.flatMap_cons, List.foldl_append, ih, tps_fold_eq]

theorem le_max_sim_fold_iff (c : FinalScan.Cache4Url) (rhs : List FinalScan.HashTriple)
    (t : ℚ) (ht : 0 < t) :
    t ≤ FinalScan.max_sim_fold c rhs ↔
      ∃ dp ∈ c, ∃ tp ∈ dp.2, ∃ rh ∈ rhs, t ≤ FinalScan.average_similarity rh tp.2 := by
  rw [max_sim_fold_eq, le_foldl_max]
  have h0 : ¬ t ≤ 0 := not_le.mpr ht
  simp only [h0, false_or, FinalScan.allSims, List.mem_flatMap, List.mem_map]
  constructor
  · rintro ⟨y, ⟨dp, hdp, tp, htp, rh, hrh, rfl⟩, hxy⟩
    exact ⟨dp, hdp, tp, htp, rh, hrh, hxy⟩
  · rintro ⟨dp, hdp, tp, htp, rh, hrh, hxy⟩
    exact ⟨_, ⟨dp, hdp, tp, htp, rh, hrh, rfl⟩, hxy⟩

/-- C8: per-algorithm similarity is 1 on identical hashes, 0 on a hash and
its full-width 64-bit complement, and in general 1 - popcount(a XOR b)/64. -/
theorem hash_similarity_props :
    (∀ h : Nat, FinalScan.similarity_hash (some h) (some h) = 1)
    ∧ (∀ h : Nat, h < 2 ^ 64 →
        FinalScan.similarity_hash (some h) (some ((2 ^ 64 - 1) ^^^ h)) = 0)
    ∧ (∀ a b : Nat,
        FinalScan.similarity_hash (some a) (some b) =
          1 - (FinalScan.popCount (a ^^^ b) : ℚ) / 64) := by
  refine ⟨?_, ?_, ?_⟩
  · intro h
    have h0 : FinalScan.hamming h h = 0 := by
      rw [FinalScan.hamming, Nat.xor_self]; rfl
    simp [FinalScan.similarity_hash, h0]
  · intro h _
    have hx : h ^^^ ((2 ^ 64 - 1) ^^^ h) = 2 ^ 64 - 1 := by
      rw [Nat.xor_comm (2 ^ 64 - 1) h, ← Nat.xor_assoc, Nat.xor_self, Nat.zero_xor]
    have hpc : FinalScan.popCount (2 ^ 64 - 1) = 64 := by decide
    have hham : FinalScan.hamming h ((2 ^ 64 - 1) ^^^ h) = 64 := by
      rw [FinalScan.hamming, hx, hpc]
    simp only [FinalScan.similarity_hash, hham, FinalScan.HASH_BITS, FinalScan.HASH_SIZE]
    norm_num
  · intro a b
    simp only [FinalScan.similarity_hash, FinalScan.hamming, FinalScan.HASH_BITS,
      FinalScan.HASH_SIZE]
    norm_num

/-- C8 witness: the complement clause applied at the 64-bit value 5. -/
theorem hash_similarity_props_witness :
    FinalScan.similarity_hash (some 5) (some ((2 ^ 64 - 1) ^^^ 5)) = 0 :=
  hash_similarity_props.2.1 5 (by decide)

/-- C10: a null hash on either side gives per-algorithm similarity 0; an
algorithm missing on one side is excluded from the mean (the other side's
value for it is irrelevant, and a pair sharing no algorithm scores 0); hence
an all-null cached record has set similarity 0 against any fresh fingerprint
and can never make process_one classify a source as fake. -/
theorem final_scan_null_similarity (t : ℚ) (ht : 0 < t) :
    (∀ h2 : Option Nat, FinalScan.similarity_hash none h2 = 0)
    ∧ (∀ h1 : Option Nat, FinalScan.similarity_hash h1 none = 0)
    ∧ (∀ t1 t2 : FinalScan.HashTriple, t1.ahash = none →
        ∀ v : Option Nat,
          FinalScan.average_similarity t1 t2 =
            FinalScan.average_similarity t1 ⟨t2.phash, v, t2.dhash⟩)
    ∧ (∀ t1 t2 : FinalScan.HashTriple, t2.ahash = none →
        ∀ v : Option Nat,
          FinalScan.average_similarity t1 t2 =
            FinalScan.average_similarity (⟨t1.phash, v, t1.dhash⟩ : FinalScan.HashTriple) t2)
    ∧ (∀ t1 t2 : FinalScan.HashTriple, FinalScan.simList t1 t2 = [] →
        FinalScan.average_similarity t1 t2 = 0)
    ∧ (∀ t1 : FinalScan.HashTriple,
        FinalScan.average_similarity t1 ⟨none, none, none⟩ = 0)
    ∧ (∀ (c : FinalScan.Cache4Url) (rhs : List FinalScan.HashTriple),
        (∀ dp ∈ c, ∀ tp ∈ dp.2, tp.2 = (⟨none, none, none⟩ : FinalScan.HashTriple)) →
        (FinalScan.process_one (some c) rhs t).is_fake = false) := by
  have havgnull : ∀ t1 : FinalScan.HashTriple,
      FinalScan.average_similarity t1 ⟨none, none, none⟩ = 0 := by
    intro t1
    simp [FinalScan.average_similarity, FinalScan.simList]
  refine ⟨?_, ?_, ?_, ?_, ?_, havgnull, ?_⟩
  · intro h2; cases h2 <;> rfl
  · intro h1; cases h1 <;> rfl
  · intro t1 t2 h v
    simp [FinalScan.average_similarity, FinalScan.simList, h]
  · intro t1 t2 h v
    simp [FinalScan.average_similarity, FinalScan.simList, h]
  · intro t1 t2 h
    simp [FinalScan.average_similarity, h]
  · intro c rhs hnull
    by_cases hE : rhs.isEmpty = true
    · simp [FinalScan.process_one, hE]
    · have hE2 : rhs.isEmpty = false := by simpa using hE
      by_cases hcE : c.isEmpty = true
      · simp [FinalScan.process_one, hE2, hcE]
      · have hc2 : c.isEmpty = false := by simpa using hcE
        have hstep : (FinalScan.process_one (some c) rhs t).is_fake =
            decide (t ≤ FinalScan.max_sim_fold c rhs) := by
          simp [FinalScan.process_one, hE2, hc2]
        rw [hstep, decide_eq_false_iff_not]
        rw [le_max_sim_fold_iff c rhs t ht]
        rintro ⟨dp, hdp, tp, htp, rh, hrh, hle⟩
        rw [hnull dp hdp tp htp, havgnull rh] at hle
        exact absurd hle (not_le.mpr ht)

/-- C10 witness: a cached record holding only null hashes never flags the
source as fake at the default threshold 0.95. -/
theorem final_scan_null_similarity_witness :
    (FinalScan.process_one (some [(20240101, [(811, ⟨none, none, none⟩)])])
        [FinalScan.tripleZero] (mkRat 19 20)).is_fake = false :=
  (final_scan_null_similarity (mkRat 19 20) (by decide)).2.2.2.2.2.2
    [(20240101, [(811, ⟨none, none, none⟩)])] [FinalScan.tripleZero] (by decide)

/-- C1 (amended): for a URL with at least one captured frame, a URL absent
from the cache yields status ok with is_fake False; otherwise the status is
ok and is_fake is True exactly when some cache entry of the URL — across all
retained date buckets and timepoints, not only the most recent bucket —
reaches the threshold against some fresh hash triple. -/
theorem final_scan_is_fake (c : FinalScan.Cache4Url) (rhs : List FinalScan.HashTriple)
    (t : ℚ) (hrh : rhs ≠ []) (ht : 0 < t) :
    FinalScan.process_one none rhs t = ⟨"ok", [], false, false, 1⟩
    ∧ (FinalScan.process_one (some c) rhs t).status = "ok"
    ∧ ((FinalScan.process_one (some c) rhs t).is_fake = true ↔
        ∃ dp ∈ c, ∃ tp ∈ dp.2, ∃ rh ∈ rhs, t ≤ FinalScan.average_similarity rh tp.2) := by
  have hE2 : rhs.isEmpty = false := by
    cases rhs with
    | nil => exact absurd rfl hrh
    | cons a l => rfl
  refine ⟨by simp [FinalScan.process_one, hE2], ?_, ?_⟩
  · by_cases hcE : c.isEmpty = true
    · simp [FinalScan.process_one, hE2, hcE]
    · have hc2 : c.isEmpty = false := by simpa using hcE
      simp [FinalScan.process_one, hE2, hc2]
  · by_cases hcE : c.isEmpty = true
    · have hc0 : c = [] := by
        cases c with
        | nil => rfl
        | cons a l => simp [List.isEmpty] at hcE
      subst hc0
      simp [FinalScan.process_one, hE2]
    · have hc2 : c.isEmpty = false := by simpa using hcE
      have hstep : (FinalScan.process_one (some c) rhs t).is_fake =
          decide (t ≤ FinalScan.max_sim_fold c rhs) := by
        simp [FinalScan.process_one, hE2, hc2]
      rw [hstep, decide_eq_true_eq]
      exact le_max_sim_fold_iff c rhs t ht

/-- C1 witness: the amended theorem applied to the concrete two-bucket
cache, a single fresh hash triple, and the default threshold 0.95. -/
theorem final_scan_is_fake_witness :
    FinalScan.process_one none [FinalScan.tripleZero] (mkRat 19 20) =
      ⟨"ok", [], false, false, 1⟩
    ∧ (FinalScan.process_one (some FinalScan.exCache) [FinalScan.tripleZero]
        (mkRat 19 20)).status = "ok" :=
  ⟨(final_scan_is_fake FinalScan.exCache [FinalScan.tripleZero] (mkRat 19 20)
      (by simp) (by decide)).1,
    (final_scan_is_fake FinalScan.exCache [FinalScan.tripleZero] (mkRat 19 20)
      (by simp) (by decide)).2.1⟩

/-- C1 counterexample: the code flags the source as fake because an OLD date
bucket matches the fresh hashes exactly, while the similarity against the
most recent bucket (the claimed baseline) is 0, strictly below the
threshold; so is_fake does not track the most-recent-baseline criterion. -/
theorem final_scan_most_recent_counterexample :
    (FinalScan.process_one (some FinalScan.exCache) [FinalScan.tripleZero]
        (mkRat 19 20)).is_fake = true
    ∧ FinalScan.max_sim_recent FinalScan.exCache [FinalScan.tripleZero] < mkRat 19 20 := by
  have h11 : FinalScan.average_similarity FinalScan.tripleZero FinalScan.tripleZero = 1 := by
    have hham : FinalScan.hamming 0 0 = 0 := by decide
    simp only [FinalScan.average_similarity, FinalScan.simList, FinalScan.tripleZero,
      FinalScan.similarity_hash, hham, FinalScan.HASH_BITS, FinalScan.HASH_SIZE]
    norm_num
    decide
  have h10 : FinalScan.average_similarity FinalScan.tripleZero FinalScan.tripleFar = 0 := by
    have hham : FinalScan.hamming 0 FinalScan.M64 = 64 := by decide
    simp only [FinalScan.average_similarity, FinalScan.simList, FinalScan.tripleZero,
      FinalScan.tripleFar, FinalScan.similarity_hash, hham, FinalScan.HASH_BITS,
      FinalScan.HASH_SIZE]
    norm_num
  have hmax01 : max (0 : ℚ) 1 = 1 := max_eq_right (by norm_num)
  have hmax10 : max (1 : ℚ) 0 = 1 := max_eq_left (by norm_num)
  have hms : FinalScan.max_sim_fold FinalScan.exCache [FinalScan.tripleZero] = 1 := by
    simp only [FinalScan.max_sim_fold, FinalScan.exCache, List.foldl_cons, List.foldl_nil,
      h11, h10, hmax01, hmax10]
  constructor
  · have hstep : (FinalScan.process_one (some FinalScan.exCache) [FinalScan.tripleZero]
        (mkRat 19 20)).is_fake =
        decide (mkRat 19 20 ≤ FinalScan.max_sim_fold FinalScan.exCache [FinalScan.tripleZero]) := by
      simp [FinalScan.process_one, FinalScan.exCache]
    rw [hstep, hms, decide_eq_true_eq]
    decide
  · have hmr : FinalScan.most_recent_date FinalScan.exCache = 20240102 := by decide
    have hget : alGet FinalScan.exCache 20240102 = some [(811, FinalScan.tripleFar)] := by
      decide
    have : FinalScan.max_sim_recent FinalScan.exCache [FinalScan.tripleZero] = 0 := by
      rw [FinalScan.max_sim_recent, hmr, hget]
      simp [h10]
    rw [this]
    decide

/-! ## Theorems: hash scan (C4) -/

theorem attempt_cycle_length {ι : Type} (fetch : Nat → Option ι) (tps : List Nat)
    (imgs : List ι) (h : HashScan.attempt_cycle fetch tps = some imgs) :
    imgs.length = tps.length := by
  induction tps generalizing imgs with
  | nil =>
    simp only [HashScan.attempt_cycle, Option.some_inj] at h
    subst h
    rfl
  | cons tp tps ih =>
    simp only [HashScan.attempt_cycle] at h
    cases hf : fetch tp with
    | none => rw [hf] at h; exact absurd h (by simp)
    | some img =>
      rw [hf] at h
      cases hc : HashScan.attempt_cycle fetch tps with
      | none => rw [hc] at h; exact absurd h (by simp)
      | some imgs2 =>
        rw [hc] at h
        simp only [Option.some_inj] at h
        rw [← h, List.length_cons, ih imgs2 hc, List.length_cons]

theorem find_success_eq_none {ι : Type} (f : Nat → Option (List ι)) (n : Nat)
    (h : ∀ k, k < n → f k = none) : HashScan.find_success f n = none := by
  induction n with
  | zero => rfl
  | succ n ih =>
    simp only [HashScan.find_success]
    rw [ih (fun k hk => h k (Nat.lt_succ_of_lt hk)), h n (Nat.lt_succ_self n)]

theorem find_success_eq_some {ι : Type} (f : Nat → Option (List ι)) (n : Nat) (r : List ι)
    (h : HashScan.find_success f n = some r) : ∃ k, k < n ∧ f k = some r := by
  induction n with
  | zero => exact absurd h (by simp [HashScan.find_success])
  | succ n ih =>
    simp only [HashScan.find_success] at h
    cases hf : HashScan.find_success f n with
    | some r2 =>
      rw [hf] at h
      simp only [Option.some_inj] at h
      obtain ⟨k, hk, hfk⟩ := ih (h ▸ hf)
      exact ⟨k, Nat.lt_succ_of_lt hk, hfk⟩
    | none =>
      rw [hf] at h
      exact ⟨n, Nat.lt_succ_self n, h⟩

/-- C4 (amended): when every capture cycle up to the retry limit fails (the
cycle aborts at its first failing timepoint), process_url still returns a
fingerprint result for the URL, but with a null hash recorded for EVERY
timepoint — including timepoints whose individual captures succeeded; and in
all cases the four hash lists have one slot per configured timepoint. -/
theorem hash_scan_exhaustion :
    (∀ (ι α : Type) (fetchAt : Nat → Nat → Option ι) (p a d w : ι → α) (r : Nat),
        (∀ k, k ≤ r → HashScan.attempt_cycle (fetchAt k) HashScan.GRAB_TIMES = none) →
        HashScan.process_url fetchAt p a d w r =
          ⟨HashScan.GRAB_TIMES.map (fun _ => none), HashScan.GRAB_TIMES.map (fun _ => none),
            HashScan.GRAB_TIMES.map (fun _ => none), HashScan.GRAB_TIMES.map (fun _ => none)⟩)
    ∧ (∀ (ι α : Type) (fetchAt : Nat → Nat → Option ι) (p a d w : ι → α) (r : Nat),
        (HashScan.process_url fetchAt p a d w r).phashes.length = HashScan.GRAB_TIMES.length
        ∧ (HashScan.process_url fetchAt p a d w r).ahashes.length = HashScan.GRAB_TIMES.length
        ∧ (HashScan.process_url fetchAt p a d w r).dhashes.length = HashScan.GRAB_TIMES.length
        ∧ (HashScan.process_url fetchAt p a d w r).whashes.length
            = HashScan.GRAB_TIMES.length) := by
  constructor
  · intro ι α fetchAt p a d w r hfail
    have hnone : HashScan.find_success
        (fun k => HashScan.attempt_cycle (fetchAt k) HashScan.GRAB_TIMES) (r + 1) = none :=
      find_success_eq_none _ _ (fun k hk => hfail k (Nat.lt_succ_iff.mp hk))
    rw [HashScan.process_url, hnone]
  · intro ι α fetchAt p a d w r
    rw [HashScan.process_url]
    cases hf : HashScan.find_success
        (fun k => HashScan.attempt_cycle (fetchAt k) HashScan.GRAB_TIMES) (r + 1) with
    | none => simp
    | some imgs =>
      obtain ⟨k, _, hfk⟩ := find_success_eq_some _ _ _ hf
      have hlen : imgs.length = HashScan.GRAB_TIMES.length :=
        attempt_cycle_length _ _ _ hfk
      simp [hlen]

/-- C4 witness: the exhaustion clause applied to the oracle whose grabs at
timepoint 20 always fail, with retries 2. -/
theorem hash_scan_exhaustion_witness :
    HashScan.process_url HashScan.exFetch (fun _ => (0 : Nat)) (fun _ => 0) (fun _ => 0)
        (fun _ => 0) 2 =
      ⟨HashScan.GRAB_TIMES.map (fun _ => none), HashScan.GRAB_TIMES.map (fun _ => none),
        HashScan.GRAB_TIMES.map (fun _ => none), HashScan.GRAB_TIMES.map (fun _ => none)⟩ :=
  hash_scan_exhaustion.1 Unit Nat HashScan.exFetch (fun _ => 0) (fun _ => 0) (fun _ => 0)
    (fun _ => 0) 2 (fun _ _ => rfl)

/-- C4 counterexample: with captures at timepoints 2 and 5 succeeding on
every attempt and timepoint 20 always failing, the returned hash lists are
all null — the hashes of the succeeded timepoints are NOT retained, contrary
to the claim. -/
theorem hash_scan_partial_failure_counterexample :
    HashScan.process_url HashScan.exFetch (fun _ => (0 : Nat)) (fun _ => 1) (fun _ => 2)
        (fun _ => 3) 2 =
      ⟨[none, none, none], [none, none, none], [none, none, none], [none, none, none]⟩
    ∧ HashScan.exFetch 0 2 = some () ∧ HashScan.exFetch 1 2 = some ()
    ∧ HashScan.exFetch 2 2 = some () ∧ HashScan.exFetch 0 5 = some ()
    ∧ HashScan.exFetch 1 5 = some () ∧ HashScan.exFetch 2 5 = some () := by
  refine ⟨by decide, rfl, rfl, rfl, rfl, rfl, rfl⟩

/-! ## Theorems: hash-history merge (C2) -/

theorem alKeys_length {κ β : Type} (m : List (κ × β)) : (alKeys m).length = m.length := by
  simp [alKeys]

theorem alKeys_filterKey {κ β : Type} (g : κ → Bool) (m : List (κ × β)) :
    alKeys (m.filter (fun p => g p.1)) = (alKeys m).filter g := by
  rw [alKeys, alKeys, List.filter_map]
  rfl

theorem merge_bucket_nocap {α : Type} (r : List (Nat × α)) (t : Nat) (v : α)
    (h : ¬ MergeHash.MAX_HISTORY < (alSet r t v).length) :
    MergeHash.merge_bucket r t v = alSet r t v := by
  rw [MergeHash.merge_bucket]
  simp only [if_neg h]

theorem bucket_inv_step {α : Type} (r : List (Nat × α)) (s : Finset Nat) (t : Nat) (v : α)
    (h : MergeHash.bucket_inv r s) :
    MergeHash.bucket_inv (MergeHash.merge_bucket r t v) (insert t s) := by
  obtain ⟨hnd, hsub, hlen, hold⟩ := h
  have hlen6 : r.length ≤ MergeHash.MAX_HISTORY := hlen ▸ min_le_left _ _
  by_cases ht : t ∈ alKeys r
  · -- re-merge of an existing tag: keys, length and tag set unchanged
    have hts : t ∈ s := hsub t ht
    have hins : insert t s = s := Finset.insert_eq_self.mpr hts
    have hkeys : alKeys (alSet r t v) = alKeys r := by rw [alKeys_alSet, if_pos ht]
    have hlen1 : (alSet r t v).length = r.length := by rw [length_alSet, if_pos ht]
    have hcap : ¬ MergeHash.MAX_HISTORY < (alSet r t v).length :=
      not_lt.mpr (hlen1 ▸ hlen6)
    rw [merge_bucket_nocap r t v hcap, hins]
    exact ⟨hkeys ▸ hnd, hkeys ▸ hsub, hlen1.trans hlen, hkeys ▸ hold⟩
  · have hkeys1 : alKeys (alSet r t v) = alKeys r ++ [t] := by
      rw [alKeys_alSet, if_neg ht]
    have hlen1 : (alSet r t v).length = r.length + 1 := by rw [length_alSet, if_neg ht]
    have hnd1 : (alKeys (alSet r t v)).Nodup := by
      rw [hkeys1, List.nodup_append]
      exact ⟨hnd, List.nodup_singleton t,
        fun a ha hb => ht ((List.mem_singleton.mp hb) ▸ ha)⟩
    by_cases hfull : r.length = MergeHash.MAX_HISTORY
    · -- the record was full: one bucket, the chronologically oldest, is evicted
      have hlen7 : (alSet r t v).length = MergeHash.MAX_HISTORY + 1 := by rw [hlen1, hfull]
      have hcap : MergeHash.MAX_HISTORY < (alSet r t v).length := by rw [hlen7]; omega
      have hkslen : (alKeys (alSet r t v)).length = MergeHash.MAX_HISTORY + 1 := by
        rw [alKeys_length, hlen7]
      have hperm : ((alKeys (alSet r t v)).insertionSort (· ≤ ·)).Perm (alKeys (alSet r t v)) :=
        List.perm_insertionSort _ _
      have hsortlen : ((alKeys (alSet r t v)).insertionSort (· ≤ ·)).length =
          MergeHash.MAX_HISTORY + 1 := by rw [hperm.length_eq, hkslen]
      have hsort : ((alKeys (alSet r t v)).insertionSort (· ≤ ·)).Sorted (· ≤ ·) :=
        List.sorted_insertionSort _ _
      obtain ⟨m, rest, hmrest⟩ :
          ∃ m rest, (alKeys (alSet r t v)).insertionSort (· ≤ ·) = m :: rest := by
        have hne : (alKeys (alSet r t v)).insertionSort (· ≤ ·) ≠ [] := by
          intro hnil
          rw [hnil] at hsortlen
          simp [MergeHash.MAX_HISTORY] at hsortlen
        exact List.exists_cons_of_ne_nil hne
      have htake : ((alKeys (alSet r t v)).insertionSort (· ≤ ·)).take
          ((alSet r t v).length - MergeHash.MAX_HISTORY) = [m] := by
        have h1 : (alSet r t v).length - MergeHash.MAX_HISTORY = 1 := by rw [hlen7]; omega
        rw [h1, hmrest]
        rfl
      have hres : MergeHash.merge_bucket r t v =
          (alSet r t v).filter (fun p => decide (p.1 ∉ [m])) := by
        rw [MergeHash.merge_bucket]
        simp only [if_pos hcap, htake]
      have hm_mem : m ∈ alKeys (alSet r t v) :=
        hperm.mem_iff.mp (hmrest ▸ List.mem_cons_self m rest)
      have hm_min : ∀ y ∈ alKeys (alSet r t v), m ≤ y := by
        intro y hy
        have hy2 := hperm.mem_iff.mpr hy
        rw [hmrest] at hy2
        rcases List.mem_cons.mp hy2 with rfl | hy3
        · exact le_refl _
        · exact List.rel_of_sorted_cons (hmrest ▸ hsort) y hy3
      have hkeysres : alKeys (MergeHash.merge_bucket r t v) =
          (alKeys (alSet r t v)).erase m := by
        have hfk := alKeys_filterKey (fun k => decide (k ∉ [m])) (alSet r t v)
        rw [hres, hfk]
        have hptw : ∀ k ∈ alKeys (alSet r t v), (decide (k ∉ [m])) = (k != m) := by
          intro k _
          by_cases hk : k = m <;> simp [hk]
        rw [List.filter_congr hptw, ← List.Nodup.erase_eq_filter hnd1]
      have hlenres : (MergeHash.merge_bucket r t v).length = MergeHash.MAX_HISTORY := by
        rw [← alKeys_length (MergeHash.merge_bucket r t v), hkeysres,
          List.length_erase_of_mem hm_mem, hkslen]
        omega
      refine ⟨?_, ?_, ?_, ?_⟩
      · rw [hkeysres]; exact hnd1.erase m
      · intro k hk
        rw [hkeysres] at hk
        have hk2 : k ∈ alKeys (alSet r t v) := ((List.Nodup.mem_erase_iff hnd1).mp hk).2
        rw [hkeys1] at hk2
        rcases List.mem_append.mp hk2 with hk3 | hk3
        · exact Finset.mem_insert_of_mem (hsub k hk3)
        · rw [List.mem_singleton.mp hk3]; exact Finset.mem_insert_self t s
      · rw [hlenres]
        have hcards : MergeHash.MAX_HISTORY ≤ s.card := by
          rcases le_or_lt s.card MergeHash.MAX_HISTORY with hc | hc
          · rw [min_eq_right hc] at hlen
            omega
          · exact le_of_lt hc
        have hci : MergeHash.MAX_HISTORY ≤ (insert t s).card :=
          le_trans hcards (Finset.card_le_card (Finset.subset_insert t s))
        exact (min_eq_left hci).symm
      · intro x hx hxres y hy
        rw [hkeysres] at hy hxres
        have hy1 : y ∈ alKeys (alSet r t v) := ((List.Nodup.mem_erase_iff hnd1).mp hy).2
        have hym : y ≠ m := ((List.Nodup.mem_erase_iff hnd1).mp hy).1
        have hmy : m < y := lt_of_le_of_ne (hm_min y hy1) (fun hc => hym hc.symm)
        by_cases hxm : x = m
        · rw [hxm]; exact hmy
        · have hxks : x ∉ alKeys (alSet r t v) := fun hxk =>
            hxres ((List.Nodup.mem_erase_iff hnd1).mpr ⟨hxm, hxk⟩)
          have hxr : x ∉ alKeys r := fun hxk =>
            hxks (by rw [hkeys1]; exact List.mem_append_left _ hxk)
          have hxt : x ≠ t := fun hc =>
            hxks (by rw [hkeys1, hc]; exact List.mem_append_right _ (List.mem_singleton_self t))
          have hxs : x ∈ s := by
            rcases Finset.mem_insert.mp hx with rfl | h2
            · exact absurd rfl hxt
            · exact h2
          have hxlt : ∀ z ∈ alKeys r, x < z := hold x hxs hxr
          have hyor : y ∈ alKeys r ∨ y = t := by
            rw [hkeys1] at hy1
            rcases List.mem_append.mp hy1 with h2 | h2
            · exact Or.inl h2
            · exact Or.inr (List.mem_singleton.mp h2)
          rcases hyor with hyr | hyt
          · exact hxlt y hyr
          · have hmr : m ∈ alKeys r := by
              rw [hkeys1] at hm_mem
              rcases List.mem_append.mp hm_mem with h2 | h2
              · exact h2
              · exact absurd (List.mem_singleton.mp h2) (fun hc => hym (hyt.trans hc.symm))
            have hxm2 : x < m := hxlt m hmr
            have hmt : m ≤ t := hm_min t
              (by rw [hkeys1]; exact List.mem_append_right _ (List.mem_singleton_self t))
            rw [hyt]
            exact lt_of_lt_of_le hxm2 hmt
    · -- the record was not full: the new bucket is simply appended
      have hlt : r.length < MergeHash.MAX_HISTORY := lt_of_le_of_ne hlen6 hfull
      have hcap : ¬ MergeHash.MAX_HISTORY < (alSet r t v).length := by
        rw [hlen1]; omega
      rw [merge_bucket_nocap r t v hcap]
      have hcard : s.card = r.length := by
        rcases le_or_lt MergeHash.MAX_HISTORY s.card with hc | hc
        · rw [min_eq_left hc] at hlen
          omega
        · rw [hlen, min_eq_right (le_of_lt hc)]
      have htoF : (alKeys r).toFinset = s := by
        apply Finset.eq_of_subset_of_card_le
        · intro a ha
          exact hsub a (List.mem_toFinset.mp ha)
        · rw [List.toFinset_card_of_nodup hnd, alKeys_length, hcard]
      have hts : t ∉ s := fun hmem =>
        ht (List.mem_toFinset.mp (htoF ▸ hmem))
      refine ⟨hnd1, ?_, ?_, ?_⟩
      · intro k hk
        rw [hkeys1] at hk
        rcases List.mem_append.mp hk with hk2 | hk2
        · exact Finset.mem_insert_of_mem (hsub k hk2)
        · rw [List.mem_singleton.mp hk2]; exact Finset.mem_insert_self t s
      · rw [hlen1, Finset.card_insert_of_not_mem hts, hcard]
        exact (min_eq_right (by omega)).symm
      · intro x hx hxk y _
        exfalso
        rcases Finset.mem_insert.mp hx with rfl | hxs
        · exact hxk (by rw [hkeys1]; exact List.mem_append_right _ (List.mem_singleton_self x))
        · have : x ∈ alKeys r := List.mem_toFinset.mp (htoF ▸ hxs)
          exact hxk (by rw [hkeys1]; exact List.mem_append_left _ this)

theorem bucket_inv_run {α : Type} (ops : List (Nat × α)) (r : List (Nat × α)) (s : Finset Nat)
    (h : MergeHash.bucket_inv r s) :
    MergeHash.bucket_inv (ops.foldl (fun acc q => MergeHash.merge_bucket acc q.1 q.2) r)
      (s ∪ (ops.map (fun q => q.1)).toFinset) := by
  induction ops generalizing r s with
  | nil => simpa using h
  | cons q ops ih =>
    have hset : s ∪ ((q :: ops).map (fun q => q.1)).toFinset =
        (insert q.1 s) ∪ (ops.map (fun q => q.1)).toFinset := by
      ext a
      simp only [List.map_cons, List.toFinset_cons, Finset.mem_union, Finset.mem_insert]
      tauto
    rw [List.foldl_cons, hset]
    exact ih _ _ (bucket_inv_step r s q.1 q.2 h)

/-- C2: after any sequence of merge writes for a URL starting from an absent
record, the record holds at most MAX_HISTORY = 6 buckets with distinct time
tags drawn from the written tags; the count is min(6, number of distinct
written tags); every written tag that is not retained is strictly older than
every retained tag (so the retained buckets are the chronologically most
recent); and re-merging an already-present tag overwrites that bucket
without increasing the bucket count. -/
theorem merge_hash_retention {α : Type} (ops : List (Nat × α)) :
    (MergeHash.merge_run ops).length ≤ MergeHash.MAX_HISTORY
    ∧ (alKeys (MergeHash.merge_run ops)).Nodup
    ∧ (∀ k ∈ alKeys (MergeHash.merge_run ops), k ∈ ops.map (fun q => q.1))
    ∧ (MergeHash.merge_run ops).length =
        min MergeHash.MAX_HISTORY ((ops.map (fun q => q.1)).toFinset).card
    ∧ (∀ x ∈ (ops.map (fun q => q.1)).toFinset, x ∉ alKeys (MergeHash.merge_run ops) →
        ∀ y ∈ alKeys (MergeHash.merge_run ops), x < y)
    ∧ (∀ (r : List (Nat × α)) (tag : Nat) (v : α),
        r.length ≤ MergeHash.MAX_HISTORY → tag ∈ alKeys r →
        (MergeHash.merge_bucket r tag v).length = r.length
        ∧ alGet (MergeHash.merge_bucket r tag v) tag = some v) := by
  have hbase : MergeHash.bucket_inv ([] : List (Nat × α)) ∅ := by
    refine ⟨List.nodup_nil, ?_, ?_, ?_⟩
    · intro k hk; simp [alKeys] at hk
    · simp [MergeHash.MAX_HISTORY]
    · intro x hx; simp at hx
  have hrun := bucket_inv_run ops [] ∅ hbase
  rw [Finset.empty_union] at hrun
  obtain ⟨hnd, hsub, hlen, hold⟩ := hrun
  refine ⟨hlen ▸ min_le_left _ _, hnd, ?_, hlen, hold, ?_⟩
  · intro k hk
    exact List.mem_toFinset.mp (hsub k hk)
  · intro r tag v hr htag
    have hlen1 : (alSet r tag v).length = r.length := by rw [length_alSet, if_pos htag]
    have hcap : ¬ MergeHash.MAX_HISTORY < (alSet r tag v).length :=
      not_lt.mpr (hlen1 ▸ hr)
    rw [merge_bucket_nocap r tag v hcap]
    exact ⟨hlen1, by rw [alGet_alSet, if_pos rfl]⟩

/-- C2 witness: seven writes with ascending tags 1..7 leave min(6,7) = 6
buckets; tag 1 was evicted and is older than the retained tag 7; a re-merge
of the present tag 7 keeps the length at 6 and overwrites the value. -/
theorem merge_hash_retention_witness :
    (MergeHash.merge_run MergeHash.exOps).length =
      min MergeHash.MAX_HISTORY (((MergeHash.exOps.map (fun q => q.1)).toFinset).card)
    ∧ (1 : Nat) < 7
    ∧ (MergeHash.merge_bucket (MergeHash.merge_run MergeHash.exOps) 7 ()).length =
        (MergeHash.merge_run MergeHash.exOps).length :=
  ⟨(merge_hash_retention MergeHash.exOps).2.2.2.1,
    (merge_hash_retention MergeHash.exOps).2.2.2.2.1 1 (by decide) (by decide) 7 (by decide),
    ((merge_hash_retention MergeHash.exOps).2.2.2.2.2 (MergeHash.merge_run MergeHash.exOps)
      7 () (by decide) (by decide)).1⟩

/-! ## Theorems: store loaders (C7) -/

/-- C7 counterexample: on a corrupt (invalid JSON) backing file, the
final-scan total-cache loader and the rolling-merge total-cache read both
propagate the JSON decode error instead of returning an empty record. -/
theorem loader_corrupt_counterexample :
    FinalScan.load_cache_advanced .corrupt = Except.error "JSONDecodeError"
    ∧ MergeCache.read_total_cache (κ := Nat) (β := Nat) .corrupt =
        Except.error "JSONDecodeError" :=
  ⟨rfl, rfl⟩

/-- C7 (amended): the hash-history loader load_json_safe returns the empty
record on a missing or corrupt file; the final-scan total-cache loader and
the rolling-merge total-cache read return the empty record on a missing
file, but raise on a file with invalid JSON. -/
theorem loader_missing_empty {κ β : Type} :
    MergeHash.load_json_safe (κ := κ) (β := β) .missing = []
    ∧ MergeHash.load_json_safe (κ := κ) (β := β) .corrupt = []
    ∧ (∀ v : List (κ × β), MergeHash.load_json_safe (.valid v) = v)
    ∧ FinalScan.load_cache_advanced .missing = .ok ([], [])
    ∧ MergeCache.read_total_cache (κ := κ) (β := β) .missing = .ok []
    ∧ FinalScan.load_cache_advanced .corrupt = .error "JSONDecodeError"
    ∧ MergeCache.read_total_cache (κ := κ) (β := β) .corrupt = .error "JSONDecodeError" :=
  ⟨rfl, rfl, fun _ => rfl, rfl, rfl, rfl, rfl⟩

/-! ## Theorems: fake-library learner (C9) -/

theorem observe_library_cases {η : Type} [DecidableEq η] (close : η → η → Bool)
    (st : Learner.LearnerState η) (f : η) :
    (Learner.observe close st f).library = st.library
    ∨ ((Learner.observe close st f).library = st.library ++ [f] ∧ f ∉ st.library) := by
  simp only [Learner.observe]
  split
  · split
    · next h => exact Or.inr ⟨rfl, h.2⟩
    · exact Or.inl rfl
  · exact Or.inl rfl

theorem observe_library_sublist {η : Type} [DecidableEq η] (close : η → η → Bool)
    (st : Learner.LearnerState η) (f : η) :
    List.Sublist st.library (Learner.observe close st f).library := by
  rcases observe_library_cases close st f with h | ⟨h, _⟩
  · rw [h]
  · rw [h]
    exact List.sublist_append_left _ _

theorem observe_library_nodup {η : Type} [DecidableEq η] (close : η → η → Bool)
    (st : Learner.LearnerState η) (f : η) (h : st.library.Nodup) :
    (Learner.observe close st f).library.Nodup := by
  rcases observe_library_cases close st f with hc | ⟨hc, hf⟩
  · rw [hc]; exact h
  · rw [hc, List.nodup_append]
    exact ⟨h, List.nodup_singleton f, fun a ha hb => hf ((List.mem_singleton.mp hb) ▸ ha)⟩

theorem observe_count_of_mem {η : Type} [DecidableEq η] (close : η → η → Bool)
    (st : Learner.LearnerState η) (f g : η) (hg : g ∈ st.library) :
    (Learner.observe close st f).library.count g = st.library.count g := by
  rcases observe_library_cases close st f with hc | ⟨hc, hf⟩
  · rw [hc]
  · rw [hc, List.count_append]
    have hfg : g ∉ [f] := by
      intro hm
      exact hf ((List.mem_singleton.mp hm) ▸ hg)
    rw [List.count_eq_zero.mpr hfg]
    omega

theorem run_learner_sublist {η : Type} [DecidableEq η] (close : η → η → Bool)
    (st : Learner.LearnerState η) (fs : List η) :
    List.Sublist st.library (Learner.run_learner close st fs).library := by
  induction fs generalizing st with
  | nil => exact List.Sublist.refl _
  | cons f fs ih =>
    exact List.Sublist.trans (observe_library_sublist close st f)
      (ih (Learner.observe close st f))

theorem run_learner_count_of_mem {η : Type} [DecidableEq η] (close : η → η → Bool)
    (st : Learner.LearnerState η) (fs : List η) (g : η) (hg : g ∈ st.library) :
    (Learner.run_learner close st fs).library.count g = st.library.count g := by
  induction fs generalizing st with
  | nil => rfl
  | cons f fs ih =>
    have hg2 : g ∈ (Learner.observe close st f).library :=
      (observe_library_sublist close st f).mem hg
    calc (Learner.run_learner close (Learner.observe close st f) fs).library.count g
        = (Learner.observe close st f).library.count g := ih _ hg2
      _ = st.library.count g := observe_count_of_mem close st f g hg

/-- C9 (settled against the spec-modelled Learner): a fresh fingerprint that
matches an existing library entry above threshold, with no prior
observations, is not added on the first matching run, is added exactly once
on the second, remains present exactly once under any sequence of further
runs, and the library only ever grows (sublist monotonicity) while staying
duplicate-free. -/
theorem learner_two_runs {η : Type} [DecidableEq η] (close : η → η → Bool)
    (st : Learner.LearnerState η) (fresh : η)
    (hnd : st.library.Nodup)
    (hnew : fresh ∉ st.library)
    (hobs : alGet st.obs fresh = none)
    (hmatch : st.library.any (fun e => close e fresh) = true) :
    (Learner.observe close st fresh).library = st.library
    ∧ (Learner.observe close (Learner.observe close st fresh) fresh).library =
        st.library ++ [fresh]
    ∧ (Learner.observe close (Learner.observe close st fresh) fresh).library.count fresh = 1
    ∧ (Learner.observe close (Learner.observe close st fresh) fresh).library.Nodup
    ∧ (∀ fs : List η,
        (Learner.run_learner close
          (Learner.observe close (Learner.observe close st fresh) fresh) fs).library.count
            fresh = 1)
    ∧ (∀ (s2 : Learner.LearnerState η) (fs : List η),
        List.Sublist s2.library (Learner.run_learner close s2 fs).library)
    ∧ (∀ (s2 : Learner.LearnerState η) (f : η),
        s2.library.Nodup → (Learner.observe close s2 f).library.Nodup) := by
  have h1 : Learner.observe close st fresh =
      ⟨st.library, alSet st.obs fresh 1⟩ := by
    simp [Learner.observe, hmatch, hobs]
  have hg1 : alGet (alSet st.obs fresh 1) fresh = some 1 := by
    rw [alGet_alSet, if_pos rfl]
  have h2 : Learner.observe close (⟨st.library, alSet st.obs fresh 1⟩ :
      Learner.LearnerState η) fresh =
      ⟨st.library ++ [fresh], alSet (alSet st.obs fresh 1) fresh 2⟩ := by
    simp [Learner.observe, hmatch, hg1, hnew]
  have hcount : (st.library ++ [fresh]).count fresh = 1 := by
    rw [List.count_append, List.count_eq_zero.mpr hnew]
    simp
  have hnd2 : (st.library ++ [fresh]).Nodup := by
    rw [List.nodup_append]
    exact ⟨hnd, List.nodup_singleton fresh,
      fun a ha hb => hnew ((List.mem_singleton.mp hb) ▸ ha)⟩
  refine ⟨by rw [h1], by rw [h1, h2], by rw [h1, h2]; exact hcount, by rw [h1, h2]; exact hnd2,
    ?_, ?_, ?_⟩
  · intro fs
    rw [h1, h2]
    have hmem : fresh ∈ st.library ++ [fresh] :=
      List.mem_append_right _ (List.mem_singleton_self fresh)
    calc (Learner.run_learner close
          (⟨st.library ++ [fresh], alSet (alSet st.obs fresh 1) fresh 2⟩ :
            Learner.LearnerState η) fs).library.count fresh
        = (st.library ++ [fresh]).count fresh := run_learner_count_of_mem close _ fs fresh hmem
      _ = 1 := hcount
  · intro s2 fs
    exact run_learner_sublist close s2 fs
  · intro s2 f h
    exact observe_library_nodup close s2 f h

/-- C9 witness: a library holding the single entry 7, a universally close
matcher, and the new fingerprint 5: the first matching run adds nothing,
the second adds 5 exactly once. -/
theorem learner_two_runs_witness :
    (Learner.observe (fun _ _ => true) (Learner.observe (fun _ _ => true)
        (⟨[7], []⟩ : Learner.LearnerState Nat) 5) 5).library = [7] ++ [5]
    ∧ (Learner.observe (fun _ _ => true) (Learner.observe (fun _ _ => true)
        (⟨[7], []⟩ : Learner.LearnerState Nat) 5) 5).library.count 5 = 1 :=
  ⟨(learner_two_runs (fun _ _ => true) ⟨[7], []⟩ 5 (by decide) (by decide) rfl rfl).2.1,
    (learner_two_runs (fun _ _ => true) ⟨[7], []⟩ 5 (by decide) (by decide) rfl rfl).2.2.1⟩

/-! ## Theorems: rolling total-cache merge (C6) -/

theorem alGet_foldl_alSet {κ β : Type} [DecidableEq κ] (tpd : List (κ × β))
    (m0 : List (κ × β)) (k : κ) :
    alGet (tpd.foldl (fun m q => alSet m q.1 q.2) m0) k =
      match (tpd.reverse.find? (fun q => decide (q.1 = k))).map (fun q => q.2) with
      | some v => some v
      | none => alGet m0 k := by
  induction tpd generalizing m0 with
  | nil => rfl
  | cons q tpd ih =>
    rw [List.foldl_cons, ih, List.reverse_cons, List.find?_append]
    cases hf : tpd.reverse.find? (fun q2 => decide (q2.1 = k)) with
    | some p => simp [Option.or]
    | none =>
      rw [Option.none_or, alGet_alSet]
      by_cases hk : k = q.1
      · have hfq : List.find? (fun q2 => decide (q2.1 = k)) [q] = some q := by
          simp [List.find?, hk.symm]
        rw [hfq]
        simp [hk]
      · have hfq : List.find? (fun q2 => decide (q2.1 = k)) [q] = none := by
          simp only [List.find?]
          have : (decide (q.1 = k)) = false :=
            decide_eq_false (fun hc => hk hc.symm)
          rw [this]
        rw [hfq]
        simp [hk]


theorem lastAssign_file {α : Type} (date : Nat) (f : Nat × List (Nat × MergeCache.CEntry α))
    (u d tk : Nat) :
    MergeCache.lastAssign (MergeCache.file_assignments date f) (u, d, tk) =
      if u = f.1 ∧ d = date then
        (f.2.reverse.find? (fun q => decide (q.1 = tk))).map (fun q => q.2)
      else none := by
  rw [MergeCache.lastAssign, MergeCache.file_assignments, ← List.map_reverse,
    List.find?_map, Option.map_map]
  by_cases hud : u = f.1 ∧ d = date
  · obtain ⟨hu, hd⟩ := hud
    subst hu
    subst hd
    rw [if_pos ⟨rfl, rfl⟩]
    have hcong : ((fun q => decide (q.1 = (f.1, d, tk))) ∘
        (fun (q : Nat × MergeCache.CEntry α) => ((f.1, d, q.1), q.2))) =
        (fun q => decide (q.1 = tk)) := by
      funext q
      simp [Prod.ext_iff]
    rw [hcong]
    rfl
  · rw [if_neg hud]
    have hnone : List.find? ((fun q => decide (q.1 = (u, d, tk))) ∘
        (fun (q : Nat × MergeCache.CEntry α) => ((f.1, date, q.1), q.2))) f.2.reverse = none := by
      rw [List.find?_eq_none]
      intro q _
      simp only [Function.comp, decide_eq_true_eq, Prod.ext_iff]
      rintro ⟨h1, h2, _⟩
      exact hud ⟨h1.symm, h2.symm⟩
    rw [hnone]
    rfl

theorem entryAt_apply_file {α : Type} (date : Nat) (s : MergeCache.Store α)
    (f : Nat × List (Nat × MergeCache.CEntry α)) (u d tk : Nat) :
    MergeCache.entryAt (MergeCache.apply_file date s f) u d tk =
      MergeCache.overrideAt (MergeCache.file_assignments date f) (u, d, tk)
        (MergeCache.entryAt s u d tk) := by
  rw [MergeCache.overrideAt, lastAssign_file]
  by_cases hu : u = f.1
  · by_cases hd : d = date
    · rw [if_pos ⟨hu, hd⟩]
      subst hu
      subst hd
      simp only [MergeCache.apply_file, MergeCache.entryAt]
      rw [alGet_alSet, if_pos rfl, Option.getD_some, alGet_alSet, if_pos rfl,
        Option.getD_some, alGet_foldl_alSet]
      cases Option.map (fun q => q.2) (List.find? (fun q => decide (q.1 = tk)) f.2.reverse) with
      | none => rfl
      | some v => rfl
    · rw [if_neg (fun hc => hd hc.2)]
      subst hu
      simp only [MergeCache.apply_file, MergeCache.entryAt]
      rw [alGet_alSet, if_pos rfl, Option.getD_some, alGet_alSet, if_neg hd]
  · rw [if_neg (fun hc => hu hc.1)]
    simp only [MergeCache.apply_file, MergeCache.entryAt]
    rw [alGet_alSet, if_neg hu]

theorem overrideAt_append {α : Type} (L1 L2 : List ((Nat × Nat × Nat) × MergeCache.CEntry α))
    (k : Nat × Nat × Nat) (x : Option (MergeCache.CEntry α)) :
    MergeCache.overrideAt (L1 ++ L2) k x =
      MergeCache.overrideAt L2 k (MergeCache.overrideAt L1 k x) := by
  simp only [MergeCache.overrideAt, MergeCache.lastAssign, List.reverse_append,
    List.find?_append]
  cases h2 : L2.reverse.find? (fun q => decide (q.1 = k)) with
  | some p => simp [Option.or]
  | none =>
    rw [Option.none_or]
    cases h1 : L1.reverse.find? (fun q => decide (q.1 = k)) with
    | some p => rfl
    | none => rfl

theorem entryAt_foldl {α β' : Type} (step : MergeCache.Store α → β' → MergeCache.Store α)
    (A : β' → List ((Nat × Nat × Nat) × MergeCache.CEntry α))
    (hstep : ∀ s b u d tk, MergeCache.entryAt (step s b) u d tk =
        MergeCache.overrideAt (A b) (u, d, tk) (MergeCache.entryAt s u d tk))
    (l : List β') (s : MergeCache.Store α) (u d tk : Nat) :
    MergeCache.entryAt (l.foldl step s) u d tk =
      MergeCache.overrideAt (l.flatMap A) (u, d, tk) (MergeCache.entryAt s u d tk) := by
  induction l generalizing s with
  | nil => rfl
  | cons b l ih =>
    rw [List.foldl_cons, ih, hstep, List.flatMap_cons, overrideAt_append]

theorem entryAt_apply_chunk {α : Type} (date : Nat) (s : MergeCache.Store α)
    (ch : MergeCache.Chunk α) (u d tk : Nat) :
    MergeCache.entryAt (MergeCache.apply_chunk date s ch) u d tk =
      MergeCache.overrideAt (MergeCache.chunk_assignments date ch) (u, d, tk)
        (MergeCache.entryAt s u d tk) :=
  entryAt_foldl (MergeCache.apply_file date) (MergeCache.file_assignments date)
    (fun s2 b => entryAt_apply_file date s2 b) ch s u d tk

theorem entryAt_apply_dir {α : Type} (s : MergeCache.Store α)
    (dd : Nat × List (MergeCache.Chunk α)) (u d tk : Nat) :
    MergeCache.entryAt (MergeCache.apply_dir s dd) u d tk =
      MergeCache.overrideAt (MergeCache.dir_assignments dd) (u, d, tk)
        (MergeCache.entryAt s u d tk) :=
  entryAt_foldl (MergeCache.apply_chunk dd.1) (MergeCache.chunk_assignments dd.1)
    (fun s2 b => entryAt_apply_chunk dd.1 s2 b) dd.2 s u d tk

theorem entryAt_merge_all {α : Type} (s : MergeCache.Store α)
    (dirs : List (Nat × List (MergeCache.Chunk α))) (u d tk : Nat) :
    MergeCache.entryAt (MergeCache.merge_all s dirs) u d tk =
      MergeCache.overrideAt (MergeCache.all_assignments dirs) (u, d, tk)
        (MergeCache.entryAt s u d tk) :=
  entryAt_foldl MergeCache.apply_dir MergeCache.dir_assignments
    (fun s2 b => entryAt_apply_dir s2 b) dirs s u d tk

theorem foldl_prop_iff {α β' : Type} (step : MergeCache.Store α → β' → MergeCache.Store α)
    (F : MergeCache.Store α → Prop) (mention : β' → Prop)
    (hstep : ∀ s b, F (step s b) ↔ F s ∨ mention b) :
    ∀ (l : List β') (s : MergeCache.Store α),
      F (l.foldl step s) ↔ F s ∨ ∃ b ∈ l, mention b := by
  intro l
  induction l with
  | nil => intro s; simp
  | cons b l ih =>
    intro s
    rw [List.foldl_cons, ih, hstep]
    constructor
    · rintro ((h | h) | ⟨b2, hb2, hm⟩)
      · exact Or.inl h
      · exact Or.inr ⟨b, List.mem_cons_self _ _, h⟩
      · exact Or.inr ⟨b2, List.mem_cons_of_mem _ hb2, hm⟩
    · rintro (h | ⟨b2, hb2, hm⟩)
      · exact Or.inl (Or.inl h)
      · rcases List.mem_cons.mp hb2 with rfl | hb3
        · exact Or.inl (Or.inr hm)
        · exact Or.inr ⟨b2, hb3, hm⟩

theorem mem_alKeys_apply_file {α : Type} (date : Nat) (s : MergeCache.Store α)
    (f : Nat × List (Nat × MergeCache.CEntry α)) (x : Nat) :
    x ∈ alKeys (MergeCache.apply_file date s f) ↔ x ∈ alKeys s ∨ x = f.1 := by
  simp only [MergeCache.apply_file]
  rw [alKeys_alSet]
  by_cases h : f.1 ∈ alKeys s
  · rw [if_pos h]
    constructor
    · exact Or.inl
    · rintro (h2 | rfl)
      · exact h2
      · exact h
  · rw [if_neg h]
    simp [List.mem_append]

theorem mem_dateKeys_apply_file {α : Type} (date : Nat) (s : MergeCache.Store α)
    (f : Nat × List (Nat × MergeCache.CEntry α)) (u d : Nat) :
    d ∈ MergeCache.dateKeys (MergeCache.apply_file date s f) u ↔
      d ∈ MergeCache.dateKeys s u ∨ (u = f.1 ∧ d = date) := by
  simp only [MergeCache.apply_file, MergeCache.dateKeys]
  by_cases hu : u = f.1
  · subst hu
    rw [alGet_alSet, if_pos rfl, Option.getD_some, alKeys_alSet]
    by_cases hd : date ∈ alKeys ((alGet s f.1).getD [])
    · rw [if_pos hd]
      constructor
      · exact Or.inl
      · rintro (h2 | ⟨-, rfl⟩)
        · exact h2
        · exact hd
    · rw [if_neg hd]
      simp [List.mem_append]
  · rw [alGet_alSet, if_neg hu]
    simp [hu]

theorem mem_alKeys_merge_all {α : Type} (s : MergeCache.Store α)
    (dirs : List (Nat × List (MergeCache.Chunk α))) (x : Nat) :
    x ∈ alKeys (MergeCache.merge_all s dirs) ↔
      x ∈ alKeys s ∨ x ∈ (MergeCache.mentioned dirs).map (fun p => p.1) := by
  have hchunk : ∀ (date : Nat) (s2 : MergeCache.Store α) (ch : MergeCache.Chunk α),
      x ∈ alKeys (MergeCache.apply_chunk date s2 ch) ↔
        x ∈ alKeys s2 ∨ ∃ f ∈ ch, x = f.1 :=
    fun date s2 ch => foldl_prop_iff (MergeCache.apply_file date) (fun s3 => x ∈ alKeys s3)
      (fun f => x = f.1) (fun s3 b => mem_alKeys_apply_file date s3 b x) ch s2
  have hdir : ∀ (s2 : MergeCache.Store α) (dd : Nat × List (MergeCache.Chunk α)),
      x ∈ alKeys (MergeCache.apply_dir s2 dd) ↔
        x ∈ alKeys s2 ∨ ∃ ch ∈ dd.2, ∃ f ∈ ch, x = f.1 :=
    fun s2 dd => foldl_prop_iff (MergeCache.apply_chunk dd.1) (fun s3 => x ∈ alKeys s3)
      (fun ch => ∃ f ∈ ch, x = f.1) (fun s3 b => hchunk dd.1 s3 b) dd.2 s2
  have hall : x ∈ alKeys (MergeCache.merge_all s dirs) ↔
      x ∈ alKeys s ∨ ∃ dd ∈ dirs, ∃ ch ∈ dd.2, ∃ f ∈ ch, x = f.1 :=
    foldl_prop_iff MergeCache.apply_dir (fun s3 => x ∈ alKeys s3)
      (fun dd => ∃ ch ∈ dd.2, ∃ f ∈ ch, x = f.1) (fun s3 b => hdir s3 b) dirs s
  rw [hall]
  apply or_congr_right
  constructor
  · rintro ⟨dd, hdd, ch, hch, f, hf, rfl⟩
    exact List.mem_map.mpr ⟨(f.1, dd.1),
      List.mem_flatMap.mpr ⟨dd, hdd, List.mem_flatMap.mpr
        ⟨ch, hch, List.mem_map.mpr ⟨f, hf, rfl⟩⟩⟩, rfl⟩
  · rintro hm
    rcases List.mem_map.mp hm with ⟨pr, hpr, rfl⟩
    rcases List.mem_flatMap.mp hpr with ⟨dd, hdd, hpr2⟩
    rcases List.mem_flatMap.mp hpr2 with ⟨ch, hch, hpr3⟩
    rcases List.mem_map.mp hpr3 with ⟨f, hf, rfl⟩
    exact ⟨dd, hdd, ch, hch, f, hf, rfl⟩

theorem mem_dateKeys_merge_all {α : Type} (s : MergeCache.Store α)
    (dirs : List (Nat × List (MergeCache.Chunk α))) (u d : Nat) :
    d ∈ MergeCache.dateKeys (MergeCache.merge_all s dirs) u ↔
      d ∈ MergeCache.dateKeys s u ∨ (u, d) ∈ MergeCache.mentioned dirs := by
  have hchunk : ∀ (date : Nat) (s2 : MergeCache.Store α) (ch : MergeCache.Chunk α),
      d ∈ MergeCache.dateKeys (MergeCache.apply_chunk date s2 ch) u ↔
        d ∈ MergeCache.dateKeys s2 u ∨ ∃ f ∈ ch, u = f.1 ∧ d = date :=
    fun date s2 ch => foldl_prop_iff (MergeCache.apply_file date)
      (fun s3 => d ∈ MergeCache.dateKeys s3 u) (fun f => u = f.1 ∧ d = date)
      (fun s3 b => mem_dateKeys_apply_file date s3 b u d) ch s2
  have hdir : ∀ (s2 : MergeCache.Store α) (dd : Nat × List (MergeCache.Chunk α)),
      d ∈ MergeCache.dateKeys (MergeCache.apply_dir s2 dd) u ↔
        d ∈ MergeCache.dateKeys s2 u ∨ ∃ ch ∈ dd.2, ∃ f ∈ ch, u = f.1 ∧ d = dd.1 :=
    fun s2 dd => foldl_prop_iff (MergeCache.apply_chunk dd.1)
      (fun s3 => d ∈ MergeCache.dateKeys s3 u) (fun ch => ∃ f ∈ ch, u = f.1 ∧ d = dd.1)
      (fun s3 b => hchunk dd.1 s3 b) dd.2 s2
  have hall : d ∈ MergeCache.dateKeys (MergeCache.merge_all s dirs) u ↔
      d ∈ MergeCache.dateKeys s u ∨ ∃ dd ∈ dirs, ∃ ch ∈ dd.2, ∃ f ∈ ch, u = f.1 ∧ d = dd.1 :=
    foldl_prop_iff MergeCache.apply_dir (fun s3 => d ∈ MergeCache.dateKeys s3 u)
      (fun dd => ∃ ch ∈ dd.2, ∃ f ∈ ch, u = f.1 ∧ d = dd.1) (fun s3 b => hdir s3 b) dirs s
  rw [hall]
  apply or_congr_right
  constructor
  · rintro ⟨dd, hdd, ch, hch, f, hf, rfl, rfl⟩
    exact List.mem_flatMap.mpr ⟨dd, hdd, List.mem_flatMap.mpr
      ⟨ch, hch, List.mem_map.mpr ⟨f, hf, rfl⟩⟩⟩
  · intro hm
    rcases List.mem_flatMap.mp hm with ⟨dd, hdd, hm2⟩
    rcases List.mem_flatMap.mp hm2 with ⟨ch, hch, hm3⟩
    rcases List.mem_map.mp hm3 with ⟨f, hf, hfe⟩
    have h1 : u = f.1 := (congrArg Prod.fst hfe).symm
    have h2 : d = dd.1 := (congrArg Prod.snd hfe).symm
    exact ⟨dd, hdd, ch, hch, f, hf, h1, h2⟩

theorem alSet_keys_nodup {κ β : Type} [DecidableEq κ] (m : List (κ × β)) (k : κ) (v : β)
    (h : (alKeys m).Nodup) : (alKeys (alSet m k v)).Nodup := by
  rw [alKeys_alSet]
  by_cases hk : k ∈ alKeys m
  · rw [if_pos hk]; exact h
  · rw [if_neg hk]
    rw [List.nodup_append]
    exact ⟨h, List.nodup_singleton k, fun a ha hb => hk ((List.mem_singleton.mp hb) ▸ ha)⟩

theorem alGet_eq_some_mem {κ β : Type} [DecidableEq κ] (m : List (κ × β)) (k : κ) (v : β)
    (h : alGet m k = some v) : (k, v) ∈ m := by
  induction m with
  | nil => simp [alGet_nil] at h
  | cons q m ih =>
    rw [alGet_cons] at h
    by_cases hq : q.1 = k
    · rw [if_pos hq] at h
      injection h with h
      obtain ⟨a, b⟩ := q
      simp only at hq h
      subst hq
      subst h
      exact List.mem_cons_self _ _
    · rw [if_neg hq] at h
      exact List.mem_cons_of_mem _ (ih h)

theorem WF_apply_file {α : Type} (date : Nat) (s : MergeCache.Store α)
    (f : Nat × List (Nat × MergeCache.CEntry α)) (h : MergeCache.WF s) :
    MergeCache.WF (MergeCache.apply_file date s f) := by
  obtain ⟨h1, h2⟩ := h
  constructor
  · simp only [MergeCache.apply_file]
    exact alSet_keys_nodup _ _ _ h1
  · intro p hp
    simp only [MergeCache.apply_file] at hp
    have hurec : (alKeys ((alGet s f.1).getD [])).Nodup := by
      cases hg : alGet s f.1 with
      | none => exact List.nodup_nil
      | some w => exact h2 (f.1, w) (alGet_eq_some_mem s f.1 w hg)
    rcases mem_alSet _ _ _ p hp with hpe | hpm
    · rw [hpe]
      exact alSet_keys_nodup _ _ _ hurec
    · exact h2 p hpm

theorem WF_foldl {α β' : Type} (step : MergeCache.Store α → β' → MergeCache.Store α)
    (hstep : ∀ s b, MergeCache.WF s → MergeCache.WF (step s b)) :
    ∀ (l : List β') (s : MergeCache.Store α), MergeCache.WF s → MergeCache.WF (l.foldl step s) := by
  intro l
  induction l with
  | nil => intro s h; exact h
  | cons b l ih =>
    intro s h
    rw [List.foldl_cons]
    exact ih _ (hstep s b h)

theorem WF_merge_all {α : Type} (s : MergeCache.Store α)
    (dirs : List (Nat × List (MergeCache.Chunk α))) (h : MergeCache.WF s) :
    MergeCache.WF (MergeCache.merge_all s dirs) :=
  WF_foldl MergeCache.apply_dir
    (fun s2 dd => WF_foldl (MergeCache.apply_chunk dd.1)
      (fun s3 ch => WF_foldl (MergeCache.apply_file dd.1)
        (fun s4 f2 => WF_apply_file dd.1 s4 f2) ch s3) dd.2 s2)
    dirs s h

theorem WF_prune {α : Type} (s : MergeCache.Store α) (recent : List Nat)
    (h : MergeCache.WF s) : MergeCache.WF (MergeCache.prune s recent) := by
  obtain ⟨h1, h2⟩ := h
  constructor
  · have hsub : List.Sublist (MergeCache.prune s recent)
        (s.map (fun p => (p.1, p.2.filter (fun d => decide (d.1 ∈ recent))))) :=
      List.filter_sublist _
    have hkeq : alKeys (s.map (fun p => (p.1, p.2.filter (fun d => decide (d.1 ∈ recent))))) =
        alKeys s := by
      simp [alKeys, List.map_map, Function.comp]
    have hmap : List.Sublist (alKeys (MergeCache.prune s recent))
        (alKeys (s.map (fun p => (p.1, p.2.filter (fun d => decide (d.1 ∈ recent)))))) := by
      simp only [alKeys]
      exact List.Sublist.map (fun p => p.1) hsub
    exact List.Nodup.sublist hmap (hkeq ▸ h1)
  · intro p hp
    have hp2 : p ∈ s.map (fun p => (p.1, p.2.filter (fun d => decide (d.1 ∈ recent)))) :=
      List.mem_of_mem_filter hp
    rcases List.mem_map.mp hp2 with ⟨p0, hp0, rfl⟩
    show (alKeys (p0.2.filter (fun d => decide (d.1 ∈ recent)))).Nodup
    have hfk := alKeys_filterKey (fun k => decide (k ∈ recent)) p0.2
    rw [hfk]
    exact (h2 p0 hp0).filter _

theorem overrideAt_perm {α : Type} (L1 L2 : List ((Nat × Nat × Nat) × MergeCache.CEntry α))
    (hperm : L1.Perm L2)
    (hagree : ∀ a1 ∈ L1, ∀ a2 ∈ L1, a1.1 = a2.1 → a1.2 = a2.2)
    (k : Nat × Nat × Nat) (x : Option (MergeCache.CEntry α)) :
    MergeCache.overrideAt L1 k x = MergeCache.overrideAt L2 k x := by
  simp only [MergeCache.overrideAt, MergeCache.lastAssign]
  cases h1 : L1.reverse.find? (fun q => decide (q.1 = k)) with
  | some p1 =>
    have hp1m : p1 ∈ L1 := List.mem_reverse.mp (List.mem_of_find?_eq_some h1)
    have hb1 := List.find?_some h1
    have hp1k : p1.1 = k := of_decide_eq_true hb1
    cases h2 : L2.reverse.find? (fun q => decide (q.1 = k)) with
    | some p2 =>
      have hp2m : p2 ∈ L1 := hperm.mem_iff.mpr (List.mem_reverse.mp (List.mem_of_find?_eq_some h2))
      have hb2 := List.find?_some h2
      have hp2k : p2.1 = k := of_decide_eq_true hb2
      have hv := hagree p1 hp1m p2 hp2m (hp1k.trans hp2k.symm)
      simp [hv]
    | none =>
      exfalso
      have := List.find?_eq_none.mp h2 p1 (List.mem_reverse.mpr (hperm.mem_iff.mp hp1m))
      exact this (decide_eq_true hp1k)
  | none =>
    cases h2 : L2.reverse.find? (fun q => decide (q.1 = k)) with
    | some p2 =>
      exfalso
      have hp2m : p2 ∈ L1 := hperm.mem_iff.mpr (List.mem_reverse.mp (List.mem_of_find?_eq_some h2))
      have hb2 := List.find?_some h2
      have hp2k : p2.1 = k := of_decide_eq_true hb2
      have := List.find?_eq_none.mp h1 p2 (List.mem_reverse.mpr hp2m)
      exact this (decide_eq_true hp2k)
    | none => rfl

theorem dir_assignments_perm {α : Type} (a b : Nat × List (MergeCache.Chunk α))
    (hd : a.1 = b.1) (hp : a.2.Perm b.2) :
    (MergeCache.dir_assignments a).Perm (MergeCache.dir_assignments b) := by
  rw [MergeCache.dir_assignments, MergeCache.dir_assignments, ← hd]
  exact hp.flatMap_right _

theorem all_assignments_perm {α : Type} (dirs1 dirs2 : List (Nat × List (MergeCache.Chunk α)))
    (h : List.Forall₂ (fun a b => a.1 = b.1 ∧ a.2.Perm b.2) dirs1 dirs2) :
    (MergeCache.all_assignments dirs1).Perm (MergeCache.all_assignments dirs2) := by
  induction h with
  | nil => exact List.Perm.refl _
  | cons hab _ ih =>
    simp only [MergeCache.all_assignments, List.flatMap_cons]
    exact List.Perm.append (dir_assignments_perm _ _ hab.1 hab.2) ih

theorem mentioned_perm {α : Type} (dirs1 dirs2 : List (Nat × List (MergeCache.Chunk α)))
    (h : List.Forall₂ (fun a b => a.1 = b.1 ∧ a.2.Perm b.2) dirs1 dirs2) :
    (MergeCache.mentioned dirs1).Perm (MergeCache.mentioned dirs2) := by
  induction h with
  | nil => exact List.Perm.refl _
  | cons hab _ ih =>
    simp only [MergeCache.mentioned, List.flatMap_cons]
    refine List.Perm.append ?_ ih
    rw [← hab.1]
    exact hab.2.flatMap_right _

theorem WF_dateKeys_nodup {α : Type} (s : MergeCache.Store α) (h : MergeCache.WF s) (u : Nat) :
    (MergeCache.dateKeys s u).Nodup := by
  rw [MergeCache.dateKeys]
  cases hg : alGet s u with
  | none => exact List.nodup_nil
  | some w => exact h.2 (u, w) (alGet_eq_some_mem s u w hg)

theorem sorted_lists_eq (l1 l2 : List Nat) (h1 : l1.Nodup) (h2 : l2.Nodup)
    (hmem : ∀ a, a ∈ l1 ↔ a ∈ l2) :
    l1.insertionSort (· ≤ ·) = l2.insertionSort (· ≤ ·) := by
  refine List.eq_of_perm_of_sorted ?_ (List.sorted_insertionSort _ _)
    (List.sorted_insertionSort _ _)
  exact (List.perm_insertionSort _ l1).trans
    (((List.perm_ext_iff_of_nodup h1 h2).mpr hmem).trans (List.perm_insertionSort _ l2).symm)

theorem sort_output_eq {α : Type} (s1 s2 : MergeCache.Store α)
    (h1 : MergeCache.WF s1) (h2 : MergeCache.WF s2)
    (hu : ∀ u, u ∈ alKeys s1 ↔ u ∈ alKeys s2)
    (hd : ∀ u d, d ∈ MergeCache.dateKeys s1 u ↔ d ∈ MergeCache.dateKeys s2 u)
    (he : ∀ u d tk, MergeCache.entryAt s1 u d tk = MergeCache.entryAt s2 u d tk) :
    MergeCache.sort_output s1 = MergeCache.sort_output s2 := by
  rw [MergeCache.sort_output, MergeCache.sort_output,
    sorted_lists_eq (alKeys s1) (alKeys s2) h1.1 h2.1 hu]
  apply List.map_congr_left
  intro u _
  have hdk : ((alKeys ((alGet s1 u).getD [])).insertionSort (· ≤ ·)) =
      ((alKeys ((alGet s2 u).getD [])).insertionSort (· ≤ ·)) :=
    sorted_lists_eq _ _ (WF_dateKeys_nodup s1 h1 u) (WF_dateKeys_nodup s2 h2 u) (hd u)
  rw [hdk]
  refine congrArg (fun l => (u, l)) ?_
  apply List.map_congr_left
  intro d _
  refine congrArg (fun l => (d, l)) ?_
  apply List.filterMap_congr
  intro tk _
  show (MergeCache.entryAt s1 u d tk).map (fun e => (tk, e)) =
    (MergeCache.entryAt s2 u d tk).map (fun e => (tk, e))
  rw [he u d tk]

theorem alKeys_sort_output {α : Type} (s : MergeCache.Store α) :
    alKeys (MergeCache.sort_output s) = (alKeys s).insertionSort (· ≤ ·) := by
  simp only [MergeCache.sort_output, alKeys, List.map_map]
  generalize (List.insertionSort (fun x1 x2 => x1 ≤ x2) (List.map (fun p => p.1) s)) = L
  induction L with
  | nil => rfl
  | cons a L ih =>
    rw [List.map_cons, ih]
    rfl

theorem pairwise_lt_insertionSort (l : List Nat) (hnd : l.Nodup) :
    List.Pairwise (· < ·) (l.insertionSort (· ≤ ·)) := by
  have hs : List.Pairwise (· ≤ ·) (l.insertionSort (· ≤ ·)) := List.sorted_insertionSort _ _
  have hnd2 : (l.insertionSort (· ≤ ·)).Nodup :=
    (List.perm_insertionSort (· ≤ ·) l).nodup_iff.mpr hnd
  exact (hs.and hnd2).imp (fun hab => lt_of_le_of_ne hab.1 hab.2)

theorem filterMap_keys_sublist {β' : Type} (g : Nat → Option β') (l : List Nat) :
    List.Sublist ((l.filterMap (fun tk => (g tk).map (fun e => (tk, e)))).map (fun p => p.1))
      l := by
  induction l with
  | nil => simp
  | cons tk l ih =>
    rw [List.filterMap_cons]
    cases hg : g tk with
    | none =>
      simp only [hg, Option.map_none']
      exact List.Sublist.cons tk ih
    | some e =>
      simp only [hg, Option.map_some', List.map_cons]
      exact List.Sublist.cons₂ tk ih

theorem alKeys_map_pair {β' : Type} (g : Nat → β') (l : List Nat) :
    alKeys (l.map (fun d => (d, g d))) = l := by
  induction l with
  | nil => rfl
  | cons a l ih =>
    rw [List.map_cons, alKeys_cons, ih]

theorem sort_output_inner_sorted {α : Type} (s : MergeCache.Store α) (h : MergeCache.WF s) :
    ∀ p ∈ MergeCache.sort_output s, List.Pairwise (· < ·) (alKeys p.2) := by
  intro p hp
  rw [MergeCache.sort_output] at hp
  rcases List.mem_map.mp hp with ⟨u, _, rfl⟩
  have hk := alKeys_map_pair (fun d => MergeCache.TIME_KEYS.filterMap (fun tk =>
      (alGet ((alGet ((alGet s u).getD []) d).getD []) tk).map (fun e => (tk, e))))
    ((alKeys ((alGet s u).getD [])).insertionSort (· ≤ ·))
  show List.Pairwise (· < ·) (alKeys (List.map (fun d =>
      (d, MergeCache.TIME_KEYS.filterMap (fun tk =>
        (alGet ((alGet ((alGet s u).getD []) d).getD []) tk).map (fun e => (tk, e)))))
      ((alKeys ((alGet s u).getD [])).insertionSort (· ≤ ·))))
  rw [hk]
  exact pairwise_lt_insertionSort _ (WF_dateKeys_nodup s h u)

theorem sort_output_tp_sublist {α : Type} (s : MergeCache.Store α) :
    ∀ p ∈ MergeCache.sort_output s, ∀ q ∈ p.2,
      List.Sublist (alKeys q.2) MergeCache.TIME_KEYS := by
  intro p hp q hq
  rw [MergeCache.sort_output] at hp
  rcases List.mem_map.mp hp with ⟨u, _, rfl⟩
  rcases List.mem_map.mp hq with ⟨d, _, rfl⟩
  show List.Sublist ((MergeCache.TIME_KEYS.filterMap (fun tk =>
      (alGet ((alGet ((alGet s u).getD []) d).getD []) tk).map (fun e => (tk, e)))).map
      (fun p => p.1)) MergeCache.TIME_KEYS
  exact filterMap_keys_sublist (fun tk => alGet ((alGet ((alGet s u).getD []) d).getD []) tk)
    MergeCache.TIME_KEYS

/-- C6 counterexample: two chunk files of the same date directory that
disagree on URL 10, timepoint 0811 — enumerating them in the two possible
orders produces different serialized total caches, so the output is not
independent of the enumeration order. -/
theorem merge_cache_order_counterexample :
    MergeCache.merge_caches ([] : MergeCache.Store Nat) [1]
        [(1, [MergeCache.exChunkA, MergeCache.exChunkB])] ≠
      MergeCache.merge_caches [] [1] [(1, [MergeCache.exChunkB, MergeCache.exChunkA])] := by
  decide

/-- C6 (amended): the serialized total cache is sorted by URL, then by date
bucket key, then by the fixed TIME_KEYS timepoint ordering; and two runs
over identical chunk-file contents and an identical prior cache produce
identical serialized output provided no two chunk assignments to the same
(url, date, timepoint) disagree — the per-directory enumeration order is
then irrelevant (without that proviso the order matters, see the
counterexample). -/
theorem merge_cache_deterministic {α : Type} (prior : MergeCache.Store α) (recent : List Nat)
    (dirs1 dirs2 : List (Nat × List (MergeCache.Chunk α)))
    (hwf : MergeCache.WF prior)
    (hpair : List.Forall₂ (fun a b => a.1 = b.1 ∧ a.2.Perm b.2) dirs1 dirs2)
    (hagree : ∀ a1 ∈ MergeCache.all_assignments dirs1,
        ∀ a2 ∈ MergeCache.all_assignments dirs1, a1.1 = a2.1 → a1.2 = a2.2) :
    MergeCache.merge_caches prior recent dirs1 = MergeCache.merge_caches prior recent dirs2
    ∧ List.Pairwise (· < ·) (alKeys (MergeCache.merge_caches prior recent dirs1))
    ∧ (∀ p ∈ MergeCache.merge_caches prior recent dirs1,
        List.Pairwise (· < ·) (alKeys p.2))
    ∧ (∀ p ∈ MergeCache.merge_caches prior recent dirs1, ∀ q ∈ p.2,
        List.Sublist (alKeys q.2) MergeCache.TIME_KEYS) := by
  have hwf0 : MergeCache.WF (MergeCache.prune prior recent) := WF_prune prior recent hwf
  have hwf1 : MergeCache.WF (MergeCache.merge_all (MergeCache.prune prior recent) dirs1) :=
    WF_merge_all _ dirs1 hwf0
  have hwf2 : MergeCache.WF (MergeCache.merge_all (MergeCache.prune prior recent) dirs2) :=
    WF_merge_all _ dirs2 hwf0
  refine ⟨?_, ?_, ?_, ?_⟩
  · rw [MergeCache.merge_caches, MergeCache.merge_caches]
    apply sort_output_eq _ _ hwf1 hwf2
    · intro u
      rw [mem_alKeys_merge_all, mem_alKeys_merge_all]
      apply or_congr_right
      exact ((mentioned_perm dirs1 dirs2 hpair).map (fun p => p.1)).mem_iff
    · intro u d
      rw [mem_dateKeys_merge_all, mem_dateKeys_merge_all]
      apply or_congr_right
      exact (mentioned_perm dirs1 dirs2 hpair).mem_iff
    · intro u d tk
      rw [entryAt_merge_all, entryAt_merge_all]
      exact overrideAt_perm _ _ (all_assignments_perm dirs1 dirs2 hpair) hagree _ _
  · rw [MergeCache.merge_caches, alKeys_sort_output]
    exact pairwise_lt_insertionSort _ hwf1.1
  · rw [MergeCache.merge_caches]
    exact sort_output_inner_sorted _ hwf1
  · rw [MergeCache.merge_caches]
    exact sort_output_tp_sublist _

/-- C6 witness: the amended theorem applied to a singleton directory list,
where the two runs enumerate the same single chunk file. -/
theorem merge_cache_deterministic_witness :
    MergeCache.merge_caches ([] : MergeCache.Store Nat) [1] [(1, [MergeCache.exChunkA])] =
      MergeCache.merge_caches [] [1] [(1, [MergeCache.exChunkA])]
    ∧ List.Pairwise (· < ·)
        (alKeys (MergeCache.merge_caches ([] : MergeCache.Store Nat) [1]
          [(1, [MergeCache.exChunkA])])) :=
  ⟨(merge_cache_deterministic [] [1] [(1, [MergeCache.exChunkA])] [(1, [MergeCache.exChunkA])]
      ⟨List.nodup_nil, fun p hp => absurd hp (List.not_mem_nil p)⟩
      (List.Forall₂.cons ⟨rfl, List.Perm.refl _⟩ List.Forall₂.nil)
      (by decide)).1,
    (merge_cache_deterministic [] [1] [(1, [MergeCache.exChunkA])] [(1, [MergeCache.exChunkA])]
      ⟨List.nodup_nil, fun p hp => absurd hp (List.not_mem_nil p)⟩
      (List.Forall₂.cons ⟨rfl, List.Perm.refl _⟩ List.Forall₂.nil)
      (by decide)).2.1⟩
